import Mathlib

/-!
Verification development for the parallel vertex-clustering (vertex-welding)
engine of `TriangleMeshPWeld.cpp` and the epsilon finder of `find-eps.cpp`.

Positions are modelled with exact rational coordinates (the claims under
study treat arithmetic as exact).  The concurrent wave loop of
`merge_vertices_forward` / `merge_vertices_forward_async` is modelled as a
state machine whose atomic step is the processing of one active source
(one body of the inner `omp for` loop at an index whose counter reached 0);
a wave is a fold of such steps over an arbitrary order of the vertex ids,
and the outer `while (should_continue)` loop is a fold over a list of such
orders (the "schedule").  All invariant theorems below are proved for every
schedule, which covers every serialization of the source-level atomic
operations of the OpenMP program.
-/

namespace PWeld

/-- A 3D point with exact rational coordinates, standing for `Eigen::Vector3d`. -/
abbrev V3 : Type := ℚ × ℚ × ℚ

/-- The zero vector, used as the out-of-range default for list lookups. -/
def v3zero : V3 := (0, 0, 0)

/-- Componentwise scaling of a 3D point, standing for `double * Vector3d`. -/
def vscale (q : ℚ) (v : V3) : V3 := (q * v.1, q * v.2.1, q * v.2.2)

/-- Componentwise division of a 3D point by a scalar, `Vector3d / double`. -/
def vdiv (v : V3) (q : ℚ) : V3 := (v.1 / q, v.2.1 / q, v.2.2 / q)

/-- Squared Euclidean distance between two points. -/
def dist2 (a b : V3) : ℚ :=
  (a.1 - b.1) ^ 2 + (a.2.1 - b.2.1) ^ 2 + (a.2.2 - b.2.2) ^ 2

/-- Modelled from the spec (§4.1, the kd-tree `KDTreeFlann` radius search whose
implementation is not part of the sources): vertices `i` and `j` are
epsilon-neighbors when their Euclidean distance is at most `eps`
("Distances are Euclidean; the inclusion is closed (≤ r)"), expressed on the
squared distance. -/
def nbB (vs : List V3) (eps : ℚ) (i j : Nat) : Bool :=
  decide (dist2 (vs.getD i v3zero) (vs.getD j v3zero) ≤ eps ^ 2)

/-- Modelled from the spec (§4.1): the count returned by
`KDTreeFlann::SearchRadiusSmallerAndBigger`, "the count of neighbors with
id ≤ i (including i itself)". -/
def searchRadiusSmallerCount (vs : List V3) (eps : ℚ) (i : Nat) : Nat :=
  ((List.range vs.length).filter (fun j => decide (j ≤ i) && nbB vs eps i j)).length

/-- Modelled from the spec (§4.1): the `indices_bigger` output of
`KDTreeFlann::SearchRadiusSmallerAndBigger`, "the ids of neighbors with
id > i", in ascending order (the ordering is unspecified but deterministic). -/
def searchRadiusBigger (vs : List V3) (eps : ℚ) (i : Nat) : List Nat :=
  (List.range vs.length).filter (fun j => decide (i < j) && nbB vs eps i j)

/-- The mesh container.  `vertices_`, `vertex_normals_`, `vertex_colors_` are the
`MeshBase` fields (modelled from the spec, `MeshBase.h` is not among the
sources); `triangles_`, `triangle_normals_`, `adjacency_list_` are the
`TriangleMesh` fields of `TriangleMesh.h`. -/
structure TriangleMesh where
  vertices_ : List V3
  triangles_ : List (Nat × Nat × Nat)
  vertex_normals_ : List V3
  vertex_colors_ : List V3
  triangle_normals_ : List V3
  adjacency_list_ : List (List Nat)
deriving DecidableEq

/-- Pointwise function update (a store into a `std::vector` slot). -/
def upd {α : Type} (f : Nat → α) (a : Nat) (b : α) : Nat → α :=
  fun x => if x = a then b else f x

/-- The shared mutable state of the wave loop: the parent array `cp_vec` and
the remaining-smaller counters `remainingSmallerFinalsVec`. -/
structure WeldVars where
  cp : Nat → Nat
  rem : Nat → Int

/-- `remainingSmallerFinalsVec[i]` right after initialization:
`numSmallerNeighbors - 1` (all smaller neighbors minus the vertex itself),
lines 84-86 of `TriangleMeshPWeld.cpp`. -/
def remInit (vs : List V3) (eps : ℚ) (i : Nat) : Int :=
  (searchRadiusSmallerCount vs eps i : Int) - 1

/-- The initial weld state: `cp_vec[i] = i` and the counters from `remInit`. -/
def weldInit (vs : List V3) (eps : ℚ) : WeldVars :=
  ⟨fun i => i, fun i => remInit vs eps i⟩

/-- Processing of one bigger neighbor `j` by the active source `p`
(lines 124-142 of `TriangleMeshPWeld.cpp`): if `p` is a centroid and `j` is
still pending, the CAS loop stores `p` into `cp_vec[j]` exactly when `p` is
smaller than the current value; the `should_continue` flag is OR-ed with
`rem[j] ≥ 1`; finally `rem[j]` is decremented. -/
def nbrStep (p : Nat) (isC : Bool) (sf : WeldVars × Bool) (j : Nat) : WeldVars × Bool :=
  let s := sf.1
  let cp' := if isC && decide (0 < s.rem j) && decide (p < s.cp j)
             then upd s.cp j p else s.cp
  ⟨⟨cp', upd s.rem j (s.rem j - 1)⟩, sf.2 || decide (1 ≤ s.rem j)⟩

/-- One body of the wave loop's `omp for` at index `p`
(lines 112-144 of `TriangleMeshPWeld.cpp`): skip if `rem[p] < 0`; if
`rem[p] = 0`, decrement it to `-1`, capture whether `p` is a centroid and
process all its bigger neighbors. -/
def srcStep (bg : Nat → List Nat) (sf : WeldVars × Bool) (p : Nat) : WeldVars × Bool :=
  if sf.1.rem p < 0 then sf
  else if sf.1.rem p = 0 then
    let s1 : WeldVars := ⟨sf.1.cp, upd sf.1.rem p (-1)⟩
    (bg p).foldl (nbrStep p (decide (s1.cp p = p))) (s1, sf.2)
  else sf

/-- One wave: the `omp for` over all vertex ids, serialized in the order
`ord`, starting from a freshly reset `should_continue = false`. -/
def wave (bg : Nat → List Nat) (ord : List Nat) (s : WeldVars) : WeldVars × Bool :=
  ord.foldl (srcStep bg) (s, false)

/-- The outer `while (should_continue)` loop, fuelled by a schedule: a list
of per-wave processing orders.  Returns the state together with the flag
(`true` means the schedule ran out before the loop would have exited). -/
def weldLoop (bg : Nat → List Nat) : List (List Nat) → WeldVars → WeldVars × Bool
  | [], s => (s, true)
  | ord :: rest, s =>
    let wres := wave bg ord s
    if wres.2 then weldLoop bg rest wres.1 else (wres.1, false)

/-- The canonical schedule: `n + 1` waves, each processing ids in ascending
order (a single-threaded execution of the `omp for`). -/
def stdSched (n : Nat) : List (List Nat) :=
  List.replicate (n + 1) (List.range n)

/-- The parent array at the end of the wave loop. -/
def weldCp (vs : List V3) (eps : ℚ) (sched : List (List Nat)) : Nat → Nat :=
  (weldLoop (searchRadiusBigger vs eps) sched (weldInit vs eps)).1.cp

/-- The weld state reached from the initial state by an arbitrary list of
source-processing steps (any serialization of the concurrent execution,
waves flattened). -/
def traceRun (vs : List V3) (eps : ℚ) (tr : List Nat) : WeldVars :=
  (tr.foldl (srcStep (searchRadiusBigger vs eps)) (weldInit vs eps, false)).1

/-- The state of `TriangleMeshPWeld::reduce`: the `pid2ccid` map (zero
initialized, as `std::vector<int>(numVertices)`), the `new_vertices` list and
the `num_cluster_members_vec` counters (all initialized to 1). -/
structure RedState where
  pid2ccid : Nat → Nat
  new_vertices : List V3
  counts : Nat → Nat

/-- One iteration of the loop of `TriangleMeshPWeld::reduce`
(lines 49-61 of `TriangleMeshPWeld.cpp`): a centroid gets the next compressed
cluster id and its position is appended; a follower updates the running mean
`(v_i + size * new_vertices[ccid]) / (size + 1)` of its centroid's slot. -/
def reduceStep (vs : List V3) (cp : Nat → Nat) (st : RedState) (i : Nat) : RedState :=
  if cp i = i then
    ⟨upd st.pid2ccid i st.new_vertices.length,
     st.new_vertices ++ [vs.getD i v3zero], st.counts⟩
  else
    let ccid := st.pid2ccid (cp i)
    let k := st.counts ccid
    ⟨upd st.pid2ccid i ccid,
     st.new_vertices.set ccid
       (vdiv (vs.getD i v3zero + vscale (k : ℚ) (st.new_vertices.getD ccid v3zero))
             ((k : ℚ) + 1)),
     upd st.counts ccid (k + 1)⟩

/-- `TriangleMeshPWeld::reduce`: the ascending walk over `i = 0 .. n-1`. -/
def reduceRun (vs : List V3) (cp : Nat → Nat) (n : Nat) : RedState :=
  (List.range n).foldl (reduceStep vs cp) ⟨fun _ => 0, [], fun _ => 1⟩

/-- `TriangleMeshPWeld::merge_vertices_forward`: initialization, wave loop,
reduce, triangle rewrite through `pid2ccid`, and the final vertex swap. -/
def merge_vertices_forward (m : TriangleMesh) (eps : ℚ)
    (sched : List (List Nat)) : TriangleMesh :=
  let vs := m.vertices_
  let cp := weldCp vs eps sched
  let red := reduceRun vs cp vs.length
  { m with
    vertices_ := red.new_vertices,
    triangles_ := m.triangles_.map
      (fun t => (red.pid2ccid t.1, red.pid2ccid t.2.1, red.pid2ccid t.2.2)) }

/-- One step of the centroid-assignment pass of
`merge_vertices_forward_async` (lines 277-285 of `TriangleMeshPWeld.cpp`):
a centroid receives the next compressed cluster id and its position.  The
per-thread counters, the exclusive scan of `num_discovered_centroids` and the
per-thread offsets of the source are modelled by their composite effect:
centroids receive consecutive ccids in the concatenated order of the static
`omp for` chunks, which is the parameter `order` of the fold. -/
def asyncAssignStep (vs : List V3) (cp : Nat → Nat)
    (st : (Nat → Nat) × List V3) (i : Nat) : (Nat → Nat) × List V3 :=
  if cp i = i then (upd st.1 i st.2.length, st.2 ++ [vs.getD i v3zero]) else st

/-- The centroid-assignment pass of `merge_vertices_forward_async` over the
concatenated chunk order; `pid2ccid` is zero initialized
(`std::vector<int>(numVertices)`) and only set at centroids. -/
def asyncAssign (vs : List V3) (cp : Nat → Nat) (order : List Nat) :
    (Nat → Nat) × List V3 :=
  order.foldl (asyncAssignStep vs cp) (fun _ => 0, [])

/-- One step of the serial follower-aggregation pass of
`merge_vertices_forward_async` (lines 292-303 of `TriangleMeshPWeld.cpp`):
`new_vertices[ccid] = (new_vertices[ccid] * n + v_i) / (n + 1)`. -/
def asyncAggStep (vs : List V3) (cp : Nat → Nat) (p2c : Nat → Nat)
    (st : List V3 × (Nat → Nat)) (i : Nat) : List V3 × (Nat → Nat) :=
  if cp i = i then st
  else
    let ccid := p2c (cp i)
    let k := st.2 ccid
    (st.1.set ccid
       (vdiv (vscale (k : ℚ) (st.1.getD ccid v3zero) + vs.getD i v3zero)
             ((k : ℚ) + 1)),
     upd st.2 ccid (k + 1))

/-- `TriangleMeshPWeld::merge_vertices_forward_async`: the same wave loop as
the synchronous variant, then the chunked centroid assignment, the serial
follower aggregation, and the two-hop triangle rewrite
`pid2ccid[cp_vec[id]]`. -/
def merge_vertices_forward_async (m : TriangleMesh) (eps : ℚ)
    (sched : List (List Nat)) (order : List Nat) : TriangleMesh :=
  let vs := m.vertices_
  let cp := weldCp vs eps sched
  let asg := asyncAssign vs cp order
  let agg := (List.range vs.length).foldl (asyncAggStep vs cp asg.1)
      (asg.2, fun _ => 1)
  { m with
    vertices_ := agg.1,
    triangles_ := m.triangles_.map
      (fun t => (asg.1 (cp t.1), asg.1 (cp t.2.1), asg.1 (cp t.2.2))) }

/-- `BinarySearchVals` of `find-eps.cpp`. -/
structure BinarySearchVals where
  epsilon_min_boundary : ℚ
  epsilon_max_boundary : ℚ
  reduction_rate_on_min_boundary : ℚ
  reduction_rate_on_max_boundary : ℚ
deriving DecidableEq

/-- `EPSILON_STEP_SIZE` of `find-eps.cpp` (0.01). -/
def EPSILON_STEP_SIZE : ℚ := 1 / 100

/-- `max_epsilon_searched` of `find_epsilon_range_by_linear_search` (10.0). -/
def max_epsilon_searched : ℚ := 10

/-- The body of the linear-search loop of
`find_epsilon_range_by_linear_search`, with the welder abstracted into the
reduction-rate oracle `rate`.  `none` models the failing `assert` after the
loop (an error is reported and no bracket is produced).  The fuel only
bounds the recursion; 1000 steps are enough to reach the 10.0 cap. -/
def linSearchGo (rate : ℚ → ℚ) (target : ℚ) :
    Nat → ℚ → ℚ → Option BinarySearchVals
  | 0, _, _ => none
  | fuel + 1, eps, prev =>
    if eps < max_epsilon_searched then
      if target ≤ rate eps then
        some ⟨eps - EPSILON_STEP_SIZE, eps, prev, rate eps⟩
      else linSearchGo rate target fuel (eps + EPSILON_STEP_SIZE) (rate eps)
    else none

/-- `find_epsilon_range_by_linear_search` of `find-eps.cpp`: walk epsilon
from `EPSILON_STEP_SIZE` in steps of the same size while below the cap,
memoizing the previous reduction rate (initially 0.0). -/
def find_epsilon_range_by_linear_search (rate : ℚ → ℚ) (target : ℚ) :
    Option BinarySearchVals :=
  linSearchGo rate target 1000 EPSILON_STEP_SIZE 0

/-- The smaller pending in-range neighbors of `i`: the vertices that will
still decrement `rem[i]` when they emit. -/
def pendNbrs (vs : List V3) (eps : ℚ) (s : WeldVars) (i : Nat) : Finset Nat :=
  (Finset.range vs.length).filter
    (fun j => j < i ∧ nbB vs eps i j = true ∧ 0 ≤ s.rem j)

/-- The number of pending (not yet emitted) vertices. -/
def pendCount (n : Nat) (s : WeldVars) : Nat :=
  ((Finset.range n).filter (fun i => 0 ≤ s.rem i)).card

/-- The wave-loop invariant: parent pointers never increase ids, point to
in-range neighbors, are frozen once their target emitted, and each live
counter equals the number of smaller pending in-range neighbors. -/
structure WInv (vs : List V3) (eps : ℚ) (s : WeldVars) : Prop where
  cp_le : ∀ j, s.cp j ≤ j
  cp_dom : ∀ j, s.cp j ≠ j → j < vs.length ∧ nbB vs eps (s.cp j) j = true
  cp_frozen : ∀ j, s.cp j ≠ j → s.rem (s.cp j) < 0 ∧ s.cp (s.cp j) = s.cp j
  rem_count : ∀ i, i < vs.length → 0 ≤ s.rem i →
    s.rem i = ((pendNbrs vs eps s i).card : Int)

/-- Number of centroids (`cp[j] = j`) among the ids below `k`: the compressed
cluster id handed out by the ascending reduce walk. -/
def crank (cp : Nat → Nat) (k : Nat) : Nat :=
  ((List.range k).filter (fun j => decide (cp j = j))).length

/-- The original ids that `reduce` maps to compressed cluster id `c`. -/
def reduceFiber (vs : List V3) (cp : Nat → Nat) (n c : Nat) : List Nat :=
  (List.range n).filter (fun i => decide ((reduceRun vs cp n).pid2ccid i = c))

/-- The ids below `k` whose cluster (the centroid `cp i`) has compressed id
`c`: the members of cluster `c` seen by the first `k` reduce iterations. -/
def redMembers (cp : Nat → Nat) (k c : Nat) : List Nat :=
  (List.range k).filter (fun i => decide (crank cp (cp i) = c))

/-- Sum of the positions of a list of vertex ids. -/
def posSum (vs : List V3) (l : List Nat) : V3 :=
  (l.map (fun i => vs.getD i v3zero)).sum

/-- A mesh with two coincident vertices (used against the ε = 0 law). -/
def mDup : TriangleMesh :=
  ⟨[(0, 0, 0), (0, 0, 0)], [(0, 0, 1)], [], [], [], []⟩

/-- A four-point mesh on which the welder's output size is not monotone in
epsilon: at ε = 1 vertex 1 is its own centroid and claims 2 and 3 (clusters
`{0}` and `{1,2,3}`), while at ε = 3/2 vertex 0 claims 1, leaving 2 and 3 as
separated singleton centroids (clusters `{0,1}`, `{2}`, `{3}`). -/
def mMono : TriangleMesh :=
  ⟨[(0, 3/2, 0), (0, 0, 0), (1, 0, 0), (-1, 0, 0)], [], [], [], [], []⟩

/-- A two-vertex mesh whose vertices are more than 1 apart (witness data). -/
def mIso : TriangleMesh :=
  ⟨[(0, 0, 0), (5, 0, 0)], [(0, 0, 1)], [], [], [], []⟩

/-! ### Basic lemmas about the point arithmetic and the modelled search -/

theorem upd_self {α : Type} (f : Nat → α) (a : Nat) (b : α) : upd f a b a = b := by
  simp [upd]

theorem upd_ne {α : Type} (f : Nat → α) {a x : Nat} (b : α) (h : x ≠ a) :
    upd f a b x = f x := by
  simp [upd, h]

theorem dist2_comm (a b : V3) : dist2 a b = dist2 b a := by
  simp only [dist2]
  ring

theorem dist2_self (a : V3) : dist2 a a = 0 := by
  simp [dist2]

theorem nbB_comm (vs : List V3) (eps : ℚ) (i j : Nat) :
    nbB vs eps i j = nbB vs eps j i := by
  simp only [nbB]
  rw [dist2_comm]

theorem nbB_self (vs : List V3) (eps : ℚ) (i : Nat) : nbB vs eps i i = true := by
  simp only [nbB, dist2_self, decide_eq_true_eq]
  positivity

theorem mem_searchRadiusBigger {vs : List V3} {eps : ℚ} {i j : Nat} :
    j ∈ searchRadiusBigger vs eps i ↔
      j < vs.length ∧ i < j ∧ nbB vs eps i j = true := by
  simp [searchRadiusBigger, List.mem_filter, List.mem_range, and_assoc]

theorem searchRadiusBigger_nodup (vs : List V3) (eps : ℚ) (i : Nat) :
    (searchRadiusBigger vs eps i).Nodup :=
  List.Nodup.filter _ (List.nodup_range _)

theorem self_not_mem_searchRadiusBigger (vs : List V3) (eps : ℚ) (i : Nat) :
    i ∉ searchRadiusBigger vs eps i := by
  intro h
  exact absurd (mem_searchRadiusBigger.mp h).2.1 (lt_irrefl i)

theorem length_filter_range (n : Nat) (p : Nat → Bool) :
    ((List.range n).filter p).length
      = ((Finset.range n).filter (fun j => p j = true)).card := by
  induction n with
  | zero => simp
  | succ k ih =>
    rw [List.range_succ, List.filter_append, Finset.range_succ,
        Finset.filter_insert]
    by_cases h : p k = true
    · rw [if_pos h, Finset.card_insert_of_not_mem (by simp)]
      simp [h, ih]
    · rw [if_neg h]
      simp [h, ih]

/-- The initial counter value is the number of strictly smaller in-range
neighbors (the search count includes the vertex itself, which the code
subtracts). -/
theorem remInit_eq_card {vs : List V3} {eps : ℚ} {i : Nat} (hi : i < vs.length) :
    remInit vs eps i
      = (((Finset.range vs.length).filter
          (fun j => j < i ∧ nbB vs eps i j = true)).card : Int) := by
  have hbridge : searchRadiusSmallerCount vs eps i
      = ((Finset.range vs.length).filter
          (fun j => j ≤ i ∧ nbB vs eps i j = true)).card := by
    unfold searchRadiusSmallerCount
    rw [length_filter_range]
    congr 1
    ext j
    simp [Bool.and_eq_true, decide_eq_true_eq]
  have hsplit : (Finset.range vs.length).filter
        (fun j => j ≤ i ∧ nbB vs eps i j = true)
      = insert i ((Finset.range vs.length).filter
          (fun j => j < i ∧ nbB vs eps i j = true)) := by
    ext j
    simp only [Finset.mem_filter, Finset.mem_insert, Finset.mem_range]
    constructor
    · rintro ⟨hj, hle, hnb⟩
      rcases lt_or_eq_of_le hle with h | h
      · exact Or.inr ⟨hj, h, hnb⟩
      · exact Or.inl h
    · rintro (h | ⟨hj, hlt, hnb⟩)
      · subst h
        exact ⟨hi, le_refl _, nbB_self vs eps j⟩
      · exact ⟨hj, le_of_lt hlt, hnb⟩
  unfold remInit
  rw [hbridge, hsplit, Finset.card_insert_of_not_mem (by simp)]
  push_cast
  ring

/-! ### Pointwise effect of the atomic steps -/

theorem nbrStep_rem (p : Nat) (isC : Bool) (sf : WeldVars × Bool) (j x : Nat) :
    (nbrStep p isC sf j).1.rem x
      = if x = j then sf.1.rem j - 1 else sf.1.rem x := by
  simp [nbrStep, upd]

theorem nbrStep_cp (p : Nat) (isC : Bool) (sf : WeldVars × Bool) (j x : Nat) :
    (nbrStep p isC sf j).1.cp x =
      if x = j ∧ isC = true ∧ 0 < sf.1.rem j ∧ p < sf.1.cp j then p
      else sf.1.cp x := by
  simp only [nbrStep]
  by_cases h1 : isC = true <;> by_cases h2 : 0 < sf.1.rem j <;>
    by_cases h3 : p < sf.1.cp j <;> by_cases h4 : x = j <;>
    simp [h1, h2, h3, h4, upd]

theorem nbrStep_flag (p : Nat) (isC : Bool) (sf : WeldVars × Bool) (j : Nat) :
    (nbrStep p isC sf j).2 = (sf.2 || decide (1 ≤ sf.1.rem j)) := rfl

/-- Composite effect of processing a duplicate-free neighbor list: each
listed slot is updated once from its pre-fold value and every other slot is
untouched; the flag records whether some listed slot was still pending. -/
theorem foldl_nbrStep_spec (p : Nat) (isC : Bool) :
    ∀ (bs : List Nat), bs.Nodup → ∀ (s : WeldVars) (fl : Bool),
      (∀ j, j ∉ bs →
        (bs.foldl (nbrStep p isC) (s, fl)).1.cp j = s.cp j ∧
        (bs.foldl (nbrStep p isC) (s, fl)).1.rem j = s.rem j)
      ∧ (∀ j ∈ bs,
          (bs.foldl (nbrStep p isC) (s, fl)).1.rem j = s.rem j - 1 ∧
          (bs.foldl (nbrStep p isC) (s, fl)).1.cp j
            = if isC = true ∧ 0 < s.rem j ∧ p < s.cp j then p else s.cp j)
      ∧ ((bs.foldl (nbrStep p isC) (s, fl)).2 = true ↔
          (fl = true ∨ ∃ j ∈ bs, 1 ≤ s.rem j)) := by
  intro bs
  induction bs with
  | nil =>
    intro _ s fl
    exact ⟨fun j _ => ⟨rfl, rfl⟩, fun j hj => absurd hj (List.not_mem_nil j),
      by simp⟩
  | cons b t ih =>
    intro hnd s fl
    have hbt : b ∉ t := (List.nodup_cons.mp hnd).1
    have hndt : t.Nodup := (List.nodup_cons.mp hnd).2
    have hrun : (b :: t).foldl (nbrStep p isC) (s, fl)
        = t.foldl (nbrStep p isC) (nbrStep p isC (s, fl) b) := rfl
    have hpair : nbrStep p isC (s, fl) b
        = ((nbrStep p isC (s, fl) b).1, (nbrStep p isC (s, fl) b).2) := rfl
    obtain ⟨hA, hB, hC⟩ := ih hndt (nbrStep p isC (s, fl) b).1
        (nbrStep p isC (s, fl) b).2
    rw [hrun, hpair]
    have hcp1 : ∀ x, x ≠ b →
        (nbrStep p isC (s, fl) b).1.cp x = s.cp x := by
      intro x hx
      rw [nbrStep_cp]
      simp [hx]
    have hrem1 : ∀ x, x ≠ b →
        (nbrStep p isC (s, fl) b).1.rem x = s.rem x := by
      intro x hx
      rw [nbrStep_rem]
      simp [hx]
    refine ⟨?_, ?_, ?_⟩
    · intro j hj
      have hjb : j ≠ b := fun h => hj (h ▸ List.mem_cons_self b t)
      have hjt : j ∉ t := fun h => hj (List.mem_cons_of_mem b h)
      obtain ⟨h1, h2⟩ := hA j hjt
      exact ⟨h1.trans (hcp1 j hjb), h2.trans (hrem1 j hjb)⟩
    · intro j hj
      rcases List.mem_cons.mp hj with hjb | hjt
      · subst hjb
        obtain ⟨h1, h2⟩ := hA j hbt
        constructor
        · rw [h2, nbrStep_rem]
          simp
        · rw [h1, nbrStep_cp]
          simp
      · have hjb : j ≠ b := fun h => hbt (h ▸ hjt)
        obtain ⟨h1, h2⟩ := hB j hjt
        constructor
        · rw [h1, hrem1 j hjb]
        · rw [h2, hrem1 j hjb, hcp1 j hjb]
    · rw [hC, nbrStep_flag]
      constructor
      · rintro (h | ⟨j, hjt, hle⟩)
        · rcases (Bool.or_eq_true _ _).mp h with h' | h'
          · exact Or.inl h'
          · exact Or.inr ⟨b, List.mem_cons_self b t, of_decide_eq_true h'⟩
        · have hjb : j ≠ b := fun h => hbt (h ▸ hjt)
          rw [hrem1 j hjb] at hle
          exact Or.inr ⟨j, List.mem_cons_of_mem b hjt, hle⟩
      · rintro (h | ⟨j, hj, hle⟩)
        · exact Or.inl (by simp [h])
        · rcases List.mem_cons.mp hj with hjb | hjt
          · subst hjb
            exact Or.inl (by simp [hle])
          · have hjb : j ≠ b := fun h => hbt (h ▸ hjt)
            exact Or.inr ⟨j, hjt, by rwa [hrem1 j hjb]⟩

theorem srcStep_of_neg {bg : Nat → List Nat} {s : WeldVars} {fl : Bool}
    {p : Nat} (h : s.rem p < 0) : srcStep bg (s, fl) p = (s, fl) := by
  simp [srcStep, h]

theorem srcStep_of_pos {bg : Nat → List Nat} {s : WeldVars} {fl : Bool}
    {p : Nat} (h : 0 < s.rem p) : srcStep bg (s, fl) p = (s, fl) := by
  have h1 : ¬ s.rem p < 0 := by omega
  have h2 : ¬ s.rem p = 0 := by omega
  simp [srcStep, h1, h2]

/-- Composite effect of an emission: the source is marked emitted, each of
its bigger neighbors is decremented and possibly claimed by the monotone
CAS, everything else is untouched. -/
theorem srcStep_emit {bg : Nat → List Nat} {s : WeldVars} {fl : Bool} {p : Nat}
    (hnd : (bg p).Nodup) (hself : p ∉ bg p) (h0 : s.rem p = 0) :
    ((srcStep bg (s, fl) p).1.rem p = -1 ∧ (srcStep bg (s, fl) p).1.cp p = s.cp p)
    ∧ (∀ j, j ∉ bg p → j ≠ p →
        (srcStep bg (s, fl) p).1.cp j = s.cp j ∧
        (srcStep bg (s, fl) p).1.rem j = s.rem j)
    ∧ (∀ j ∈ bg p,
        (srcStep bg (s, fl) p).1.rem j = s.rem j - 1 ∧
        (srcStep bg (s, fl) p).1.cp j
          = if s.cp p = p ∧ 0 < s.rem j ∧ p < s.cp j then p else s.cp j)
    ∧ ((srcStep bg (s, fl) p).2 = true ↔ (fl = true ∨ ∃ j ∈ bg p, 1 ≤ s.rem j)) := by
  have hlt : ¬ s.rem p < 0 := by omega
  have hrun : srcStep bg (s, fl) p
      = (bg p).foldl (nbrStep p (decide (s.cp p = p)))
          (⟨s.cp, upd s.rem p (-1)⟩, fl) := by
    simp [srcStep, hlt, h0]
  obtain ⟨hA, hB, hC⟩ := foldl_nbrStep_spec p (decide (s.cp p = p)) (bg p) hnd
      ⟨s.cp, upd s.rem p (-1)⟩ fl
  refine ⟨?_, ?_, ?_, ?_⟩
  · obtain ⟨h1, h2⟩ := hA p hself
    rw [hrun]
    exact ⟨h2.trans (upd_self _ _ _), h1⟩
  · intro j hj hjp
    obtain ⟨h1, h2⟩ := hA j hj
    rw [hrun]
    exact ⟨h1, h2.trans (upd_ne _ _ hjp)⟩
  · intro j hj
    have hjp : j ≠ p := fun h => hself (h ▸ hj)
    obtain ⟨h1, h2⟩ := hB j hj
    rw [hrun]
    constructor
    · rw [h1]
      simp [upd, hjp]
    · rw [h2]
      simp [upd, hjp, decide_eq_true_eq]
  · rw [hrun, hC]
    constructor
    · rintro (h | ⟨j, hj, hle⟩)
      · exact Or.inl h
      · have hjp : j ≠ p := fun h => hself (h ▸ hj)
        simp only [upd, if_neg hjp] at hle
        exact Or.inr ⟨j, hj, hle⟩
    · rintro (h | ⟨j, hj, hle⟩)
      · exact Or.inl h
      · have hjp : j ≠ p := fun h => hself (h ▸ hj)
        refine Or.inr ⟨j, hj, ?_⟩
        simpa [upd, hjp] using hle

/-! ### The wave-loop invariant -/

theorem remInit_nonneg {vs : List V3} {eps : ℚ} {i : Nat} (hi : i < vs.length) :
    0 ≤ remInit vs eps i := by
  rw [remInit_eq_card hi]
  positivity

theorem winv_init (vs : List V3) (eps : ℚ) : WInv vs eps (weldInit vs eps) := by
  refine ⟨fun j => le_refl j, fun j h => absurd rfl h, fun j h => absurd rfl h,
    fun i hi hpos => ?_⟩
  have : pendNbrs vs eps (weldInit vs eps) i
      = (Finset.range vs.length).filter
          (fun j => j < i ∧ nbB vs eps i j = true) := by
    unfold pendNbrs
    ext j
    simp only [Finset.mem_filter, Finset.mem_range, and_congr_right_iff]
    intro hj _
    constructor
    · rintro ⟨h1, _⟩
      exact h1
    · intro h1
      exact ⟨h1, remInit_nonneg hj⟩
  rw [this]
  exact remInit_eq_card hi

theorem searchRadiusBigger_empty_of_ge {vs : List V3} {eps : ℚ} {p : Nat}
    (hp : vs.length ≤ p) : searchRadiusBigger vs eps p = [] := by
  unfold searchRadiusBigger
  rw [List.filter_eq_nil_iff]
  intro j hj
  have : j < vs.length := List.mem_range.mp hj
  simp only [Bool.and_eq_true, decide_eq_true_eq, not_and]
  intro hlt
  omega

/-- Preservation of the invariant by a single source-processing step. -/
theorem winv_srcStep {vs : List V3} {eps : ℚ} {s : WeldVars} (fl : Bool) (p : Nat)
    (hinv : WInv vs eps s) :
    WInv vs eps (srcStep (searchRadiusBigger vs eps) (s, fl) p).1 := by
  rcases lt_trichotomy (s.rem p) 0 with hneg | h0 | hpos
  · rw [srcStep_of_neg hneg]
    exact hinv
  swap
  · rw [srcStep_of_pos hpos]
    exact hinv
  have hnd := searchRadiusBigger_nodup vs eps p
  have hself := self_not_mem_searchRadiusBigger vs eps p
  obtain ⟨E1, E2, E3⟩ := @srcStep_emit (searchRadiusBigger vs eps) s fl p
      hnd hself h0
  obtain ⟨E3, _⟩ := E3
  set s' := (srcStep (searchRadiusBigger vs eps) (s, fl) p).1 with hs'
  -- composite description of the parent array after the step
  have Hcp : ∀ j, s'.cp j = s.cp j ∨
      (j ∈ searchRadiusBigger vs eps p ∧ s.cp p = p ∧ 0 < s.rem j ∧
        p < s.cp j ∧ s'.cp j = p) := by
    intro j
    by_cases hj : j ∈ searchRadiusBigger vs eps p
    · have := (E3 j hj).2
      by_cases hcond : s.cp p = p ∧ 0 < s.rem j ∧ p < s.cp j
      · rw [if_pos hcond] at this
        exact Or.inr ⟨hj, hcond.1, hcond.2.1, hcond.2.2, this⟩
      · rw [if_neg hcond] at this
        exact Or.inl this
    · by_cases hp : j = p
      · subst hp
        exact Or.inl E1.2
      · exact Or.inl (E2 j hj hp).1
  have Hrem_le : ∀ j, s'.rem j ≤ s.rem j := by
    intro j
    by_cases hj : j ∈ searchRadiusBigger vs eps p
    · rw [(E3 j hj).1]
      omega
    · by_cases hp : j = p
      · subst hp
        rw [E1.1, h0]
        omega
      · rw [(E2 j hj hp).2]
  -- pending vertices after the step: exactly the old ones except `p`
  have Hpend : ∀ j, j ≠ p → (0 ≤ s'.rem j ↔ 0 ≤ s.rem j) := by
    intro j hjp
    by_cases hj : j ∈ searchRadiusBigger vs eps p
    · rw [(E3 j hj).1]
      obtain ⟨hjn, hpj, hnb⟩ := mem_searchRadiusBigger.mp hj
      constructor
      · intro h
        omega
      · intro h
        have hcount := hinv.rem_count j hjn h
        have hpmem : p ∈ pendNbrs vs eps s j := by
          unfold pendNbrs
          simp only [Finset.mem_filter, Finset.mem_range]
          exact ⟨by omega, hpj, by rw [nbB_comm]; exact hnb, by omega⟩
        have hcard : 1 ≤ (pendNbrs vs eps s j).card :=
          Finset.card_pos.mpr ⟨p, hpmem⟩
        omega
    · rw [(E2 j hj hjp).2]
  refine ⟨?_, ?_, ?_, ?_⟩
  · intro j
    rcases Hcp j with h | ⟨hj, _, _, hlt, hw⟩
    · rw [h]
      exact hinv.cp_le j
    · rw [hw]
      exact le_of_lt (lt_of_lt_of_le hlt (hinv.cp_le j))
  · intro j hne
    rcases Hcp j with h | ⟨hj, _, _, _, hw⟩
    · rw [h] at hne ⊢
      exact hinv.cp_dom j hne
    · obtain ⟨hjn, _, hnb⟩ := mem_searchRadiusBigger.mp hj
      rw [hw]
      exact ⟨hjn, hnb⟩
  · intro j hne
    rcases Hcp j with h | ⟨hj, hcp, _, _, hw⟩
    · rw [h] at hne ⊢
      obtain ⟨hfr1, hfr2⟩ := hinv.cp_frozen j hne
      refine ⟨lt_of_le_of_lt (Hrem_le (s.cp j)) hfr1, ?_⟩
      rcases Hcp (s.cp j) with h2 | ⟨_, _, hpos2, _, _⟩
      · rw [h2]
        exact hfr2
      · omega
    · rw [hw]
      have hpp : s'.cp p = p := by
        rw [E1.2]
        exact hcp
      exact ⟨by rw [E1.1]; omega, hpp⟩
  · intro i hi hpos'
    have hip : i ≠ p := by
      intro h
      subst h
      rw [E1.1] at hpos'
      omega
    have hposi : 0 ≤ s.rem i := (Hpend i hip).mp hpos'
    have hpend_eq : pendNbrs vs eps s' i = (pendNbrs vs eps s i).erase p := by
      ext j
      simp only [pendNbrs, Finset.mem_erase, Finset.mem_filter, Finset.mem_range]
      constructor
      · rintro ⟨hjn, hji, hnb, hjrem⟩
        have hjp : j ≠ p := by
          intro h
          subst h
          rw [E1.1] at hjrem
          omega
        exact ⟨hjp, hjn, hji, hnb, (Hpend j hjp).mp hjrem⟩
      · rintro ⟨hjp, hjn, hji, hnb, hjrem⟩
        exact ⟨hjn, hji, hnb, (Hpend j hjp).mpr hjrem⟩
    rw [hpend_eq]
    by_cases hibg : i ∈ searchRadiusBigger vs eps p
    · have hrem' := (E3 i hibg).1
      have hcount := hinv.rem_count i hi hposi
      obtain ⟨hin, hpi, hnb⟩ := mem_searchRadiusBigger.mp hibg
      have hpmem : p ∈ pendNbrs vs eps s i := by
        unfold pendNbrs
        simp only [Finset.mem_filter, Finset.mem_range]
        exact ⟨by omega, hpi, by rw [nbB_comm]; exact hnb, by omega⟩
      rw [Finset.card_erase_of_mem hpmem, hrem', hcount,
        Nat.cast_sub (Finset.card_pos.mpr ⟨p, hpmem⟩)]
      push_cast
      ring
    · have hpnot : p ∉ pendNbrs vs eps s i := by
        intro hmem
        simp only [pendNbrs, Finset.mem_filter, Finset.mem_range] at hmem
        obtain ⟨hpn, hpi, hnb, _⟩ := hmem
        exact hibg (mem_searchRadiusBigger.mpr
          ⟨hi, hpi, by rw [nbB_comm]; exact hnb⟩)
      rw [Finset.erase_eq_of_not_mem hpnot, ← hinv.rem_count i hi hposi,
        (E2 i hibg hip).2]

/-- Invariant preservation along any list of source-processing steps. -/
theorem winv_fold {vs : List V3} {eps : ℚ} :
    ∀ (tr : List Nat) (s : WeldVars) (fl : Bool), WInv vs eps s →
      WInv vs eps ((tr.foldl (srcStep (searchRadiusBigger vs eps)) (s, fl)).1) := by
  intro tr
  induction tr with
  | nil => intro s fl h; exact h
  | cons p t ih =>
    intro s fl h
    have hrun : (p :: t).foldl (srcStep (searchRadiusBigger vs eps)) (s, fl)
        = t.foldl (srcStep (searchRadiusBigger vs eps))
            ((srcStep (searchRadiusBigger vs eps) (s, fl) p).1,
             (srcStep (searchRadiusBigger vs eps) (s, fl) p).2) := rfl
    rw [hrun]
    exact ih _ _ (winv_srcStep fl p h)

theorem winv_wave {vs : List V3} {eps : ℚ} {s : WeldVars} (ord : List Nat)
    (h : WInv vs eps s) :
    WInv vs eps (wave (searchRadiusBigger vs eps) ord s).1 :=
  winv_fold ord s false h

theorem winv_weldLoop {vs : List V3} {eps : ℚ} :
    ∀ (sched : List (List Nat)) (s : WeldVars), WInv vs eps s →
      WInv vs eps (weldLoop (searchRadiusBigger vs eps) sched s).1 := by
  intro sched
  induction sched with
  | nil => intro s h; exact h
  | cons ord rest ih =>
    intro s h
    rw [weldLoop]
    by_cases hw : (wave (searchRadiusBigger vs eps) ord s).2 = true
    · simp only [hw, if_true]
      exact ih _ (winv_wave ord h)
    · simp only [Bool.not_eq_true] at hw
      simp only [hw, Bool.false_eq_true, if_false]
      exact winv_wave ord h

/-- The invariant holds at the end of the wave loop, for every schedule. -/
theorem winv_final (vs : List V3) (eps : ℚ) (sched : List (List Nat)) :
    WInv vs eps (weldLoop (searchRadiusBigger vs eps) sched (weldInit vs eps)).1 :=
  winv_weldLoop sched _ (winv_init vs eps)

/-! ### Monotonicity, progress and termination of the wave loop -/

/-- Counters never increase: a step only decrements them. -/
theorem srcStep_rem_le {vs : List V3} {eps : ℚ} (s : WeldVars) (fl : Bool)
    (p j : Nat) :
    (srcStep (searchRadiusBigger vs eps) (s, fl) p).1.rem j ≤ s.rem j := by
  rcases lt_trichotomy (s.rem p) 0 with hneg | h0 | hpos
  · rw [srcStep_of_neg hneg]
  · obtain ⟨E1, E2, E3⟩ := @srcStep_emit (searchRadiusBigger vs eps) s fl p
      (searchRadiusBigger_nodup vs eps p)
      (self_not_mem_searchRadiusBigger vs eps p) h0
    obtain ⟨E3, _⟩ := E3
    by_cases hj : j ∈ searchRadiusBigger vs eps p
    · rw [(E3 j hj).1]
      omega
    · by_cases hp : j = p
      · subst hp
        rw [E1.1]
        omega
      · rw [(E2 j hj hp).2]
  · rw [srcStep_of_pos hpos]

theorem foldl_srcStep_rem_le {vs : List V3} {eps : ℚ} :
    ∀ (tr : List Nat) (s : WeldVars) (fl : Bool) (j : Nat),
      (tr.foldl (srcStep (searchRadiusBigger vs eps)) (s, fl)).1.rem j ≤ s.rem j := by
  intro tr
  induction tr with
  | nil => intro s fl j; exact le_refl _
  | cons p t ih =>
    intro s fl j
    have hrun : (p :: t).foldl (srcStep (searchRadiusBigger vs eps)) (s, fl)
        = t.foldl (srcStep (searchRadiusBigger vs eps))
            ((srcStep (searchRadiusBigger vs eps) (s, fl) p).1,
             (srcStep (searchRadiusBigger vs eps) (s, fl) p).2) := rfl
    rw [hrun]
    exact le_trans (ih _ _ j) (srcStep_rem_le s fl p j)

/-- A wave over sources that have all emitted does nothing and leaves the
continuation flag false. -/
theorem wave_skip {vs : List V3} {eps : ℚ} :
    ∀ (ord : List Nat) (s : WeldVars), (∀ p ∈ ord, s.rem p < 0) →
      wave (searchRadiusBigger vs eps) ord s = (s, false) := by
  intro ord
  induction ord with
  | nil => intro s _; rfl
  | cons p t ih =>
    intro s h
    have hstep : srcStep (searchRadiusBigger vs eps) (s, false) p = (s, false) :=
      srcStep_of_neg (h p (List.mem_cons_self p t))
    have hrun : wave (searchRadiusBigger vs eps) (p :: t) s
        = t.foldl (srcStep (searchRadiusBigger vs eps))
            (srcStep (searchRadiusBigger vs eps) (s, false) p) := rfl
    rw [hrun, hstep]
    exact ih s (fun q hq => h q (List.mem_cons_of_mem p hq))

/-- While the minimum pending id has not yet had its turn, its counter stays
at zero: every source that emits beforehand is at least as large, so it
cannot decrement the minimum. -/
theorem fold_ready {vs : List V3} {eps : ℚ} {s : WeldVars} {m : Nat}
    (hminp : ∀ p, p < vs.length → 0 ≤ s.rem p → m ≤ p) :
    ∀ (l : List Nat), m ∉ l → ∀ (u : WeldVars) (fl : Bool),
      u.rem m = 0 → (∀ j, u.rem j ≤ s.rem j) →
      ((l.foldl (srcStep (searchRadiusBigger vs eps)) (u, fl)).1.rem m = 0 ∧
       ∀ j, (l.foldl (srcStep (searchRadiusBigger vs eps)) (u, fl)).1.rem j ≤ s.rem j) := by
  intro l
  induction l with
  | nil => intro _ u fl h1 h2; exact ⟨h1, h2⟩
  | cons p t ih =>
    intro hm u fl h1 h2
    have hmp : m ≠ p := fun h => hm (h ▸ List.mem_cons_self p t)
    have hmt : m ∉ t := fun h => hm (List.mem_cons_of_mem p h)
    have hrun : (p :: t).foldl (srcStep (searchRadiusBigger vs eps)) (u, fl)
        = t.foldl (srcStep (searchRadiusBigger vs eps))
            ((srcStep (searchRadiusBigger vs eps) (u, fl) p).1,
             (srcStep (searchRadiusBigger vs eps) (u, fl) p).2) := rfl
    rw [hrun]
    have hkeep : (srcStep (searchRadiusBigger vs eps) (u, fl) p).1.rem m = 0 := by
      rcases lt_trichotomy (u.rem p) 0 with hneg | h0 | hpos
      · rw [srcStep_of_neg hneg]
        exact h1
      · obtain ⟨E1, E2, E3⟩ := @srcStep_emit (searchRadiusBigger vs eps) u fl p
          (searchRadiusBigger_nodup vs eps p)
          (self_not_mem_searchRadiusBigger vs eps p) h0
        have hmbg : m ∉ searchRadiusBigger vs eps p := by
          intro hmem
          obtain ⟨_, hpm, _⟩ := mem_searchRadiusBigger.mp hmem
          by_cases hpn : p < vs.length
          · have : 0 ≤ s.rem p := le_trans (by omega : (0:Int) ≤ u.rem p) (h2 p)
            exact absurd hpm (by have := hminp p hpn this; omega)
          · rw [searchRadiusBigger_empty_of_ge (by omega)] at hmem
            exact absurd hmem (List.not_mem_nil m)
        exact (E2 m hmbg hmp).2.trans h1
      · rw [srcStep_of_pos hpos]
        exact h1
    have hle : ∀ j, (srcStep (searchRadiusBigger vs eps) (u, fl) p).1.rem j ≤ s.rem j :=
      fun j => le_trans (srcStep_rem_le u fl p j) (h2 j)
    exact ih hmt _ _ hkeep hle

theorem pendCount_le (n : Nat) (s : WeldVars) : pendCount n s ≤ n :=
  le_trans (Finset.card_filter_le _ _) (le_of_eq (Finset.card_range n))

/-- Progress: a wave over a full permutation of the ids, started in a state
satisfying the invariant with at least one pending vertex, emits at least
one vertex (the minimum pending id), so the pending count strictly drops. -/
theorem wave_progress {vs : List V3} {eps : ℚ} {s : WeldVars}
    (hinv : WInv vs eps s) {ord : List Nat}
    (hperm : ord.Perm (List.range vs.length))
    (hne : 0 < pendCount vs.length s) :
    pendCount vs.length (wave (searchRadiusBigger vs eps) ord s).1
      < pendCount vs.length s := by
  have hSne : ((Finset.range vs.length).filter (fun i => 0 ≤ s.rem i)).Nonempty :=
    Finset.card_pos.mp hne
  set S := (Finset.range vs.length).filter (fun i => 0 ≤ s.rem i) with hS
  set m := S.min' hSne with hm
  have hmS : m ∈ S := S.min'_mem hSne
  have hmn : m < vs.length := Finset.mem_range.mp (Finset.mem_filter.mp hmS).1
  have hmrem : 0 ≤ s.rem m := (Finset.mem_filter.mp hmS).2
  have hminp : ∀ p, p < vs.length → 0 ≤ s.rem p → m ≤ p := by
    intro p hp hr
    exact S.min'_le p (Finset.mem_filter.mpr ⟨Finset.mem_range.mpr hp, hr⟩)
  -- the minimum pending id is ready: its counter is zero
  have hm0 : s.rem m = 0 := by
    have hcount := hinv.rem_count m hmn hmrem
    have : pendNbrs vs eps s m = ∅ := by
      rw [Finset.eq_empty_iff_forall_not_mem]
      intro j hj
      simp only [pendNbrs, Finset.mem_filter, Finset.mem_range] at hj
      obtain ⟨hjn, hjm, _, hjrem⟩ := hj
      exact absurd (hminp j hjn hjrem) (by omega)
    rw [this] at hcount
    simpa using hcount
  -- split the order at the slot of m
  have hmord : m ∈ ord := (hperm.mem_iff).mpr (List.mem_range.mpr hmn)
  obtain ⟨l1, l2, hsplit⟩ := List.append_of_mem hmord
  have hnd : ord.Nodup := hperm.nodup_iff.mpr (List.nodup_range _)
  have hml1 : m ∉ l1 := by
    intro h
    rw [hsplit] at hnd
    exact (List.disjoint_of_nodup_append hnd h) (List.mem_cons_self m l2)
  have hml2 : m ∉ l2 := by
    rw [hsplit] at hnd
    have := List.Nodup.of_append_right hnd
    exact (List.nodup_cons.mp this).1
  -- run the wave: before m's slot the counter stays 0, then m emits
  obtain ⟨hready, hle1⟩ := fold_ready hminp l1 hml1 s false hm0
      (fun j => le_refl _)
  have hfin : (wave (searchRadiusBigger vs eps) ord s).1.rem m < 0 := by
    rw [hsplit]
    have hrun : wave (searchRadiusBigger vs eps) (l1 ++ m :: l2) s
        = l2.foldl (srcStep (searchRadiusBigger vs eps))
            (srcStep (searchRadiusBigger vs eps)
              (l1.foldl (srcStep (searchRadiusBigger vs eps)) (s, false)) m) := by
      unfold wave
      rw [List.foldl_append]
      rfl
    rw [hrun]
    obtain ⟨E1, _, _⟩ := @srcStep_emit (searchRadiusBigger vs eps)
      (l1.foldl (srcStep (searchRadiusBigger vs eps)) (s, false)).1
      (l1.foldl (srcStep (searchRadiusBigger vs eps)) (s, false)).2 m
      (searchRadiusBigger_nodup vs eps m)
      (self_not_mem_searchRadiusBigger vs eps m) hready
    rw [Prod.mk.eta] at E1
    have hmono := @foldl_srcStep_rem_le vs eps l2
      (srcStep (searchRadiusBigger vs eps)
        (l1.foldl (srcStep (searchRadiusBigger vs eps)) (s, false)) m).1
      (srcStep (searchRadiusBigger vs eps)
        (l1.foldl (srcStep (searchRadiusBigger vs eps)) (s, false)) m).2 m
    rw [Prod.mk.eta] at hmono
    have hE := E1.1
    omega
  -- the pending set only shrinks, and m left it
  have hsub : ((Finset.range vs.length).filter
        (fun i => 0 ≤ (wave (searchRadiusBigger vs eps) ord s).1.rem i)) ⊆ S := by
    intro j hj
    obtain ⟨hjr, hjrem⟩ := Finset.mem_filter.mp hj
    refine Finset.mem_filter.mpr ⟨hjr, ?_⟩
    have := @foldl_srcStep_rem_le vs eps ord s false j
    exact le_trans hjrem this
  have hmnot : m ∉ ((Finset.range vs.length).filter
      (fun i => 0 ≤ (wave (searchRadiusBigger vs eps) ord s).1.rem i)) := by
    intro h
    have := (Finset.mem_filter.mp h).2
    omega
  unfold pendCount
  exact Finset.card_lt_card
    ((Finset.ssubset_iff_of_subset hsub).mpr ⟨m, hmS, hmnot⟩)

/-- Termination of the wave loop: with enough full-permutation waves in the
schedule, the loop reaches a wave that makes no progress and exits with the
continuation flag false. -/
theorem weldLoop_halts {vs : List V3} {eps : ℚ} :
    ∀ (sched : List (List Nat)) (s : WeldVars), WInv vs eps s →
      (∀ ord ∈ sched, ord.Perm (List.range vs.length)) →
      pendCount vs.length s < sched.length →
      (weldLoop (searchRadiusBigger vs eps) sched s).2 = false := by
  intro sched
  induction sched with
  | nil => intro s _ _ hlen; simp at hlen
  | cons ord rest ih =>
    intro s hinv hperm hlen
    rw [weldLoop]
    by_cases hw : (wave (searchRadiusBigger vs eps) ord s).2 = true
    · simp only [hw, if_true]
      have hpos : 0 < pendCount vs.length s := by
        by_contra hzero
        have hzero' : pendCount vs.length s = 0 := by omega
        have hemit : ∀ p ∈ ord, s.rem p < 0 := by
          intro p hp
          have hpn : p < vs.length :=
            List.mem_range.mp ((hperm ord (List.mem_cons_self ord rest)).mem_iff.mp hp)
          by_contra hnot
          have hpmem : p ∈ (Finset.range vs.length).filter (fun i => 0 ≤ s.rem i) :=
            Finset.mem_filter.mpr ⟨Finset.mem_range.mpr hpn, by omega⟩
          have : 0 < pendCount vs.length s :=
            Finset.card_pos.mpr ⟨p, hpmem⟩
          omega
        rw [wave_skip ord s hemit] at hw
        exact absurd hw (by simp)
      have hprog := wave_progress hinv (hperm ord (List.mem_cons_self ord rest)) hpos
      exact ih _ (winv_wave ord hinv)
        (fun o ho => hperm o (List.mem_cons_of_mem ord ho))
        (by simp only [List.length_cons] at hlen; omega)
    · simp only [Bool.not_eq_true] at hw
      simp [hw]

/-! ### Claim theorems -/

/-- C1: throughout every welding call (both `merge_vertices_forward` and
`merge_vertices_forward_async` run the same wave loop on `cp_vec`), the
parent array satisfies `cp_vec[i] ≤ i` at every reachable state — after any
serialized trace of source activations and after the full wave loop under
any schedule — because it starts as the identity and every CAS write stores
a strictly smaller value; consequently the centroid id `c = cp_vec[i]` of
the final cluster of a member `i` satisfies `c ≤ i`. -/
theorem c1_parent_pointers_decrease (m : TriangleMesh) (eps : ℚ)
    (tr : List Nat) (sched : List (List Nat)) :
    (∀ j, (traceRun m.vertices_ eps tr).cp j ≤ j)
    ∧ (∀ i, weldCp m.vertices_ eps sched i ≤ i)
    ∧ (∀ i c, weldCp m.vertices_ eps sched i = c → c ≤ i) := by
  refine ⟨?_, ?_, ?_⟩
  · intro j
    exact (winv_fold tr (weldInit m.vertices_ eps) false
      (winv_init m.vertices_ eps)).cp_le j
  · intro i
    exact (winv_final m.vertices_ eps sched).cp_le i
  · intro i c h
    exact h ▸ (winv_final m.vertices_ eps sched).cp_le i

/-- C4: the wave loop terminates on every input.  With any schedule of at
least `n + 1` waves, each a permutation of the ids (the `omp for` runs every
index exactly once per wave), the loop exits with `should_continue = false`;
a vertex whose counter went negative (EMITTED) stays negative along any
extension of the trace, so the `0 → -1` transition happens at most once; and
every wave started from an invariant state with a pending vertex emits at
least one vertex (the minimum pending id has no pending smaller neighbor),
strictly decreasing the pending count. -/
theorem c4_wave_loop_terminates (m : TriangleMesh) (eps : ℚ)
    (sched : List (List Nat))
    (hlen : m.vertices_.length + 1 ≤ sched.length)
    (hperm : ∀ ord ∈ sched, ord.Perm (List.range m.vertices_.length)) :
    (weldLoop (searchRadiusBigger m.vertices_ eps) sched
        (weldInit m.vertices_ eps)).2 = false
    ∧ (∀ (tr ex : List Nat) (i : Nat),
        (traceRun m.vertices_ eps tr).rem i < 0 →
        (traceRun m.vertices_ eps (tr ++ ex)).rem i < 0)
    ∧ (∀ s : WeldVars, WInv m.vertices_ eps s →
        0 < pendCount m.vertices_.length s →
        ∀ ord, ord.Perm (List.range m.vertices_.length) →
          pendCount m.vertices_.length
              (wave (searchRadiusBigger m.vertices_ eps) ord s).1
            < pendCount m.vertices_.length s) := by
  refine ⟨?_, ?_, fun s hinv hp ord hop => wave_progress hinv hop hp⟩
  · apply weldLoop_halts sched _ (winv_init _ _) hperm
    have := pendCount_le m.vertices_.length (weldInit m.vertices_ eps)
    omega
  · intro tr ex i h
    unfold traceRun at h ⊢
    rw [List.foldl_append]
    have hmono := @foldl_srcStep_rem_le m.vertices_ eps ex
      ((tr.foldl (srcStep (searchRadiusBigger m.vertices_ eps))
        (weldInit m.vertices_ eps, false)).1)
      ((tr.foldl (srcStep (searchRadiusBigger m.vertices_ eps))
        (weldInit m.vertices_ eps, false)).2) i
    rw [Prod.mk.eta] at hmono
    omega

theorem c4_wave_loop_terminates_witness :
    (mIso.vertices_.length + 1 ≤ (stdSched 2).length)
    ∧ (∀ ord ∈ stdSched 2, ord.Perm (List.range mIso.vertices_.length))
    ∧ (weldLoop (searchRadiusBigger mIso.vertices_ 1) (stdSched 2)
        (weldInit mIso.vertices_ 1)).2 = false := by
  have hperm : ∀ ord ∈ stdSched 2, ord.Perm (List.range mIso.vertices_.length) := by
    intro ord h
    have h2 : ord = List.range 2 := by
      simp only [stdSched] at h
      exact (List.mem_replicate.mp h).2
    rw [h2]
    exact List.Perm.refl _
  exact ⟨by decide, hperm,
    (c4_wave_loop_terminates mIso 1 (stdSched 2) (by decide) hperm).1⟩

/-! ### Closed form of the reduce walk -/

theorem list_getD_set_ne {l : List V3} {i j : Nat} (x d : V3) (h : j ≠ i) :
    ((l.set i x).getD j d) = l.getD j d := by
  simp [List.getD_eq_getElem?_getD, List.getElem?_set, Ne.symm h]

theorem list_getD_set_self {l : List V3} {i : Nat} (x d : V3) (h : i < l.length) :
    ((l.set i x).getD i d) = x := by
  simp [List.getD_eq_getElem?_getD, List.getElem?_set, h]

theorem list_getD_append_len (l : List V3) (x d : V3) :
    ((l ++ [x]).getD l.length d) = x := by
  simp [List.getD_eq_getElem?_getD, List.getElem?_append_right]

theorem crank_le (cp : Nat → Nat) (k : Nat) : crank cp k ≤ k :=
  le_trans (List.length_filter_le _ _) (le_of_eq (List.length_range k))

theorem crank_succ (cp : Nat → Nat) (k : Nat) :
    crank cp (k + 1) = crank cp k + (if cp k = k then 1 else 0) := by
  unfold crank
  rw [List.range_succ, List.filter_append]
  by_cases h : cp k = k <;> simp [h]

theorem crank_mono (cp : Nat → Nat) {j k : Nat} (h : j ≤ k) :
    crank cp j ≤ crank cp k := by
  induction h with
  | refl => exact le_refl _
  | step _ ih =>
    refine le_trans ih ?_
    rw [crank_succ]
    split <;> omega

theorem crank_lt_of_centroid {cp : Nat → Nat} {i k : Nat} (hik : i < k)
    (hc : cp i = i) : crank cp i < crank cp k := by
  have h1 : crank cp (i + 1) = crank cp i + 1 := by
    rw [crank_succ, if_pos hc]
  have h2 : crank cp (i + 1) ≤ crank cp k := crank_mono cp hik
  omega

theorem reduceRun_succ (vs : List V3) (cp : Nat → Nat) (k : Nat) :
    reduceRun vs cp (k + 1) = reduceStep vs cp (reduceRun vs cp k) k := by
  unfold reduceRun
  rw [List.range_succ, List.foldl_append]
  rfl

theorem redMembers_succ (cp : Nat → Nat) (k c : Nat) :
    redMembers cp (k + 1) c
      = redMembers cp k c ++ (if crank cp (cp k) = c then [k] else []) := by
  unfold redMembers
  rw [List.range_succ, List.filter_append]
  congr 1
  by_cases h : crank cp (cp k) = c <;> simp [h]

theorem posSum_append (vs : List V3) (l1 l2 : List Nat) :
    posSum vs (l1 ++ l2) = posSum vs l1 + posSum vs l2 := by
  unfold posSum
  rw [List.map_append, List.sum_append]

theorem posSum_singleton (vs : List V3) (i : Nat) :
    posSum vs [i] = vs.getD i v3zero := by
  simp [posSum]

theorem vdiv_one (v : V3) : vdiv v 1 = v := by
  obtain ⟨a, b, c⟩ := v
  simp [vdiv]

theorem vscale_vdiv_cancel {q : ℚ} (h : q ≠ 0) (v : V3) :
    vscale q (vdiv v q) = v := by
  obtain ⟨a, b, c⟩ := v
  simp only [vscale, vdiv, Prod.mk.injEq]
  refine ⟨?_, ?_, ?_⟩ <;> field_simp

/-- Extending a running mean by one more sample. -/
theorem avg_extend (S v : V3) (t : Nat) (ht : t ≠ 0) :
    vdiv (v + vscale (t : ℚ) (vdiv S (t : ℚ))) ((t : ℚ) + 1)
      = vdiv (S + v) ((t : ℚ) + 1) := by
  rw [vscale_vdiv_cancel (Nat.cast_ne_zero.mpr ht), add_comm]

/-- The full invariant of the ascending reduce walk: after `k` iterations
the new-vertex list holds one slot per centroid below `k` in ascending
order, `pid2ccid` agrees with the centroid rank, untouched slots keep their
initial values, and every assigned slot holds the running mean (the exact
average) of the members seen so far, with its member count. -/
theorem reducePhi (vs : List V3) (cp : Nat → Nat) (n : Nat)
    (hle : ∀ i, i < n → cp i ≤ i) (hid : ∀ i, i < n → cp (cp i) = cp i) :
    ∀ k : Nat, k ≤ n →
      ((reduceRun vs cp k).new_vertices.length = crank cp k)
      ∧ (∀ i, i < k → (reduceRun vs cp k).pid2ccid i = crank cp (cp i))
      ∧ (∀ i, k ≤ i → (reduceRun vs cp k).pid2ccid i = 0)
      ∧ (∀ c, crank cp k ≤ c → (reduceRun vs cp k).counts c = 1)
      ∧ (∀ c, c < crank cp k →
          (reduceRun vs cp k).counts c = (redMembers cp k c).length
          ∧ (reduceRun vs cp k).new_vertices.getD c v3zero
              = vdiv (posSum vs (redMembers cp k c))
                     ((redMembers cp k c).length : ℚ)) := by
  intro k
  induction k with
  | zero =>
    intro _
    refine ⟨rfl, fun i h => absurd h (Nat.not_lt_zero i), fun i _ => rfl,
      fun c _ => rfl, fun c hc => ?_⟩
    simp [crank] at hc
  | succ k ih =>
    intro hk1n
    obtain ⟨ihLen, ihP2c, ihP2cOut, ihCnt1, ihMain⟩ := ih (by omega)
    rw [reduceRun_succ]
    by_cases hc : cp k = k
    · -- centroid iteration: new slot, position appended
      simp only [reduceStep, if_pos hc]
      have hck : crank cp (k + 1) = crank cp k + 1 := by
        rw [crank_succ, if_pos hc]
      refine ⟨?_, ?_, ?_, ?_, ?_⟩
      · simp [ihLen, hck]
      · intro i hi
        rcases Nat.lt_succ_iff_lt_or_eq.mp hi with h | h
        · rw [upd_ne _ _ (by omega), ihP2c i h]
        · subst h
          rw [upd_self, ihLen, hc]
      · intro i hi
        rw [upd_ne _ _ (by omega), ihP2cOut i (by omega)]
      · intro c hcge
        exact ihCnt1 c (by omega)
      · intro c hclt
        rw [hck] at hclt
        rw [redMembers_succ]
        rcases Nat.lt_succ_iff_lt_or_eq.mp hclt with h | h
        · have hne : crank cp (cp k) ≠ c := by
            rw [hc]
            omega
          rw [if_neg hne, List.append_nil]
          obtain ⟨hcount, hmean⟩ := ihMain c h
          refine ⟨hcount, ?_⟩
          rw [List.getD_append _ _ _ _ (by rw [ihLen]; exact h)]
          exact hmean
        · subst h
          have hyes : crank cp (cp k) = crank cp k := by rw [hc]
          rw [if_pos hyes]
          have hempty : redMembers cp k (crank cp k) = [] := by
            unfold redMembers
            rw [List.filter_eq_nil_iff]
            intro i hi
            have hik : i < k := List.mem_range.mp hi
            simp only [decide_eq_true_eq]
            intro hcontra
            have hcle : cp i < k := lt_of_le_of_lt (hle i (by omega)) hik
            have : crank cp (cp i) < crank cp k :=
              crank_lt_of_centroid hcle (hid i (by omega))
            omega
          rw [hempty, List.nil_append]
          constructor
          · exact ihCnt1 (crank cp k) (le_refl _)
          · have : crank cp k = (reduceRun vs cp k).new_vertices.length :=
              ihLen.symm
            rw [this, list_getD_append_len, posSum_singleton]
            simp [vdiv_one]
    · -- follower iteration: running-mean update of the centroid's slot
      simp only [reduceStep, if_neg hc]
      have hck : crank cp (k + 1) = crank cp k := by
        rw [crank_succ, if_neg hc]
        omega
      have hlt : cp k < k := lt_of_le_of_ne (hle k (by omega)) hc
      have hcent : cp (cp k) = cp k := hid k (by omega)
      have hc0 : (reduceRun vs cp k).pid2ccid (cp k) = crank cp (cp k) := by
        rw [ihP2c (cp k) hlt, hcent]
      have hc0lt : crank cp (cp k) < crank cp k :=
        crank_lt_of_centroid hlt hcent
      have hmem : cp k ∈ redMembers cp k (crank cp (cp k)) := by
        unfold redMembers
        rw [List.mem_filter]
        refine ⟨List.mem_range.mpr hlt, ?_⟩
        simp only [decide_eq_true_eq]
        rw [hcent]
      have hlenpos : 0 < (redMembers cp k (crank cp (cp k))).length :=
        List.length_pos.mpr (List.ne_nil_of_mem hmem)
      obtain ⟨hcnt0, hmean0⟩ := ihMain (crank cp (cp k)) hc0lt
      refine ⟨?_, ?_, ?_, ?_, ?_⟩
      · simp [List.length_set, ihLen, hck]
      · intro i hi
        rcases Nat.lt_succ_iff_lt_or_eq.mp hi with h | h
        · rw [upd_ne _ _ (by omega), ihP2c i h]
        · subst h
          rw [upd_self, hc0]
      · intro i hi
        rw [upd_ne _ _ (by omega), ihP2cOut i (by omega)]
      · intro c hcge
        rw [hck] at hcge
        rw [upd_ne _ _ (by rw [hc0]; omega), ihCnt1 c hcge]
      · intro c hclt
        rw [hck] at hclt
        rw [redMembers_succ]
        by_cases hcc : crank cp (cp k) = c
        · subst hcc
          rw [if_pos rfl]
          constructor
          · rw [hc0, upd_self, hcnt0, List.length_append]
            simp
          · rw [hc0]
            rw [list_getD_set_self _ _ (by rw [ihLen]; exact hc0lt)]
            rw [hcnt0, hmean0, posSum_append, posSum_singleton,
              List.length_append]
            have hne0 : (redMembers cp k (crank cp (cp k))).length ≠ 0 := by
              omega
            push_cast
            exact avg_extend _ _ _ hne0
        · rw [if_neg hcc, List.append_nil]
          obtain ⟨hcount, hmean⟩ := ihMain c hclt
          constructor
          · rw [upd_ne _ _ (by rw [hc0]; exact fun h => hcc h.symm), hcount]
          · rw [list_getD_set_ne _ _ (by rw [hc0]; exact fun h => hcc h.symm)]
            exact hmean

theorem reduceFiber_eq_members (vs : List V3) (cp : Nat → Nat) (n : Nat)
    (hle : ∀ i, i < n → cp i ≤ i) (hid : ∀ i, i < n → cp (cp i) = cp i)
    (c : Nat) :
    reduceFiber vs cp n c = redMembers cp n c := by
  unfold reduceFiber redMembers
  apply List.filter_congr
  intro i hi
  have h := (reducePhi vs cp n hle hid n (le_refl n)).2.1 i (List.mem_range.mp hi)
  simp [h]

theorem reduce_p2c_lt (vs : List V3) (cp : Nat → Nat) (n : Nat)
    (hle : ∀ i, i < n → cp i ≤ i) (hid : ∀ i, i < n → cp (cp i) = cp i) :
    ∀ x, x < n → (reduceRun vs cp n).pid2ccid x < crank cp n := by
  intro x hx
  rw [(reducePhi vs cp n hle hid n (le_refl n)).2.1 x hx]
  exact crank_lt_of_centroid (lt_of_le_of_lt (hle x hx) hx) (hid x hx)

theorem weldCp_le (vs : List V3) (eps : ℚ) (sched : List (List Nat)) :
    ∀ i, weldCp vs eps sched i ≤ i :=
  (winv_final vs eps sched).cp_le

theorem weldCp_idem (vs : List V3) (eps : ℚ) (sched : List (List Nat)) :
    ∀ i, weldCp vs eps sched (weldCp vs eps sched i) = weldCp vs eps sched i := by
  intro i
  by_cases h : weldCp vs eps sched i = i
  · simp [h]
  · exact ((winv_final vs eps sched).cp_frozen i h).2

theorem weldCp_out {vs : List V3} {eps : ℚ} {sched : List (List Nat)} {i : Nat}
    (h : vs.length ≤ i) : weldCp vs eps sched i = i := by
  by_contra hne
  have := ((winv_final vs eps sched).cp_dom i hne).1
  omega

/-- C2: for every parent array with `cp[i] ≤ i` and `cp[cp[i]] = cp[i]`, the
reduce operation produces `new_vertices` in which every slot holds the exact
arithmetic mean of the original positions of exactly the ids that
`pid2ccid` maps to that slot, via the running-mean update
`(prev*n + v_i)/(n+1)` (arithmetic taken exact, over `ℚ`). -/
theorem c2_reduce_is_arithmetic_mean (vs : List V3) (cp : Nat → Nat) (n : Nat)
    (hle : ∀ i, i < n → cp i ≤ i) (hid : ∀ i, i < n → cp (cp i) = cp i) :
    ∀ c, c < (reduceRun vs cp n).new_vertices.length →
      (reduceRun vs cp n).new_vertices.getD c v3zero
        = vdiv (posSum vs (reduceFiber vs cp n c))
               ((reduceFiber vs cp n c).length : ℚ) := by
  intro c hclt
  have hphi := reducePhi vs cp n hle hid n (le_refl n)
  rw [hphi.1] at hclt
  rw [reduceFiber_eq_members vs cp n hle hid c]
  exact (hphi.2.2.2.2 c hclt).2

theorem c2_reduce_is_arithmetic_mean_witness :
    (∀ i : Nat, i < 2 → (fun (_ : Nat) => 0) i ≤ i)
    ∧ (∀ i : Nat, i < 2 →
        (fun (_ : Nat) => 0) ((fun (_ : Nat) => 0) i) = (fun (_ : Nat) => 0) i)
    ∧ ((reduceRun mDup.vertices_ (fun _ => 0) 2).new_vertices.getD 0 v3zero
        = vdiv (posSum mDup.vertices_ (reduceFiber mDup.vertices_ (fun _ => 0) 2 0))
               ((reduceFiber mDup.vertices_ (fun _ => 0) 2 0).length : ℚ)) :=
  ⟨fun i _ => Nat.zero_le i, fun _ _ => rfl,
   c2_reduce_is_arithmetic_mean mDup.vertices_ (fun _ => 0) 2
     (fun i _ => Nat.zero_le i) (fun _ _ => rfl) 0 (by decide)⟩

/-- C5: after `merge_vertices_forward` on a mesh whose triangle ids are all
valid vertex ids, every rewritten triangle id is a valid index into the new
vertex list: `pid2ccid` is total on the original ids (each is assigned
before it is read, because `cp[i] ≤ i` and the reduce walk ascends) and maps
them strictly below the new vertex count. -/
theorem c5_rewritten_triangles_valid (m : TriangleMesh) (eps : ℚ)
    (sched : List (List Nat))
    (hval : ∀ t ∈ m.triangles_, t.1 < m.vertices_.length ∧
        t.2.1 < m.vertices_.length ∧ t.2.2 < m.vertices_.length) :
    ∀ t ∈ (merge_vertices_forward m eps sched).triangles_,
      t.1 < (merge_vertices_forward m eps sched).vertices_.length ∧
      t.2.1 < (merge_vertices_forward m eps sched).vertices_.length ∧
      t.2.2 < (merge_vertices_forward m eps sched).vertices_.length := by
  intro t ht
  have hle := weldCp_le m.vertices_ eps sched
  have hid := weldCp_idem m.vertices_ eps sched
  have hlen : (merge_vertices_forward m eps sched).vertices_.length
      = crank (weldCp m.vertices_ eps sched) m.vertices_.length :=
    (reducePhi m.vertices_ (weldCp m.vertices_ eps sched) m.vertices_.length
      (fun i _ => hle i) (fun i _ => hid i) m.vertices_.length (le_refl _)).1
  have htm : (merge_vertices_forward m eps sched).triangles_
      = m.triangles_.map (fun t =>
          ((reduceRun m.vertices_ (weldCp m.vertices_ eps sched)
              m.vertices_.length).pid2ccid t.1,
           (reduceRun m.vertices_ (weldCp m.vertices_ eps sched)
              m.vertices_.length).pid2ccid t.2.1,
           (reduceRun m.vertices_ (weldCp m.vertices_ eps sched)
              m.vertices_.length).pid2ccid t.2.2)) := rfl
  rw [htm] at ht
  obtain ⟨t0, ht0, rfl⟩ := List.mem_map.mp ht
  obtain ⟨h1, h2, h3⟩ := hval t0 ht0
  rw [hlen]
  exact ⟨reduce_p2c_lt _ _ _ (fun i _ => hle i) (fun i _ => hid i) t0.1 h1,
    reduce_p2c_lt _ _ _ (fun i _ => hle i) (fun i _ => hid i) t0.2.1 h2,
    reduce_p2c_lt _ _ _ (fun i _ => hle i) (fun i _ => hid i) t0.2.2 h3⟩

theorem c5_rewritten_triangles_valid_witness :
    (∀ t ∈ mDup.triangles_, t.1 < mDup.vertices_.length ∧
        t.2.1 < mDup.vertices_.length ∧ t.2.2 < mDup.vertices_.length)
    ∧ (∀ t ∈ (merge_vertices_forward mDup 0 (stdSched 2)).triangles_,
        t.1 < (merge_vertices_forward mDup 0 (stdSched 2)).vertices_.length ∧
        t.2.1 < (merge_vertices_forward mDup 0 (stdSched 2)).vertices_.length ∧
        t.2.2 < (merge_vertices_forward mDup 0 (stdSched 2)).vertices_.length) :=
  ⟨by decide, c5_rewritten_triangles_valid mDup 0 (stdSched 2) (by decide)⟩

/-- C7 is refuted by `mMono`: welding at the smaller threshold 1 yields 2
new vertices, while welding at the larger threshold 3/2 yields 3, so the
new vertex count is not monotonically non-increasing in epsilon. -/
theorem c7_not_monotone_counterexample :
    (merge_vertices_forward mMono 1 (stdSched 4)).vertices_.length = 2
    ∧ (merge_vertices_forward mMono (3/2) (stdSched 4)).vertices_.length = 3
    ∧ ((1 : ℚ) < 3/2) :=
  ⟨by with_unfolding_all decide, by with_unfolding_all decide, by norm_num⟩

/-- C7 amended: the new vertex count never exceeds the original vertex
count (each new vertex is a centroid, i.e. a fixed point of `cp_vec`), but
it is not monotone in epsilon. -/
theorem c7_new_vertex_count_le (m : TriangleMesh) (eps : ℚ)
    (sched : List (List Nat)) :
    (merge_vertices_forward m eps sched).vertices_.length
      ≤ m.vertices_.length := by
  have hlen : (merge_vertices_forward m eps sched).vertices_.length
      = crank (weldCp m.vertices_ eps sched) m.vertices_.length :=
    (reducePhi m.vertices_ (weldCp m.vertices_ eps sched) m.vertices_.length
      (fun i _ => weldCp_le m.vertices_ eps sched i)
      (fun i _ => weldCp_idem m.vertices_ eps sched i)
      m.vertices_.length (le_refl _)).1
  rw [hlen]
  exact crank_le _ _

/-! ### Welding at epsilon zero and isolated vertices -/

theorem dist2_le_zero_iff (p q : V3) : dist2 p q ≤ 0 ↔ p = q := by
  obtain ⟨a, b, c⟩ := p
  obtain ⟨d, e, f⟩ := q
  unfold dist2
  simp only [Prod.mk.injEq]
  constructor
  · intro h
    have h1 : (a - d) ^ 2 = 0 := by
      nlinarith [sq_nonneg (a - d), sq_nonneg (b - e), sq_nonneg (c - f)]
    have h2 : (b - e) ^ 2 = 0 := by
      nlinarith [sq_nonneg (a - d), sq_nonneg (b - e), sq_nonneg (c - f)]
    have h3 : (c - f) ^ 2 = 0 := by
      nlinarith [sq_nonneg (a - d), sq_nonneg (b - e), sq_nonneg (c - f)]
    exact ⟨sub_eq_zero.mp (pow_eq_zero_iff two_ne_zero |>.mp h1),
      sub_eq_zero.mp (pow_eq_zero_iff two_ne_zero |>.mp h2),
      sub_eq_zero.mp (pow_eq_zero_iff two_ne_zero |>.mp h3)⟩
  · rintro ⟨rfl1, rfl2, rfl3⟩
    rw [sub_eq_zero.mpr rfl1, sub_eq_zero.mpr rfl2, sub_eq_zero.mpr rfl3]
    norm_num

theorem nbB_zero_iff (vs : List V3) (i j : Nat) :
    nbB vs 0 i j = true ↔ vs.getD i v3zero = vs.getD j v3zero := by
  unfold nbB
  rw [decide_eq_true_eq]
  have h0 : (0 : ℚ) ^ 2 = 0 := by norm_num
  rw [h0]
  exact dist2_le_zero_iff _ _

theorem searchRadiusBigger_zero_empty {vs : List V3}
    (hdist : ∀ i j, i < vs.length → j < vs.length → i ≠ j →
      vs.getD i v3zero ≠ vs.getD j v3zero) :
    ∀ p, searchRadiusBigger vs 0 p = [] := by
  intro p
  unfold searchRadiusBigger
  rw [List.filter_eq_nil_iff]
  intro j hj
  have hjn : j < vs.length := List.mem_range.mp hj
  simp only [Bool.and_eq_true, decide_eq_true_eq, not_and]
  intro hpj
  rw [Bool.not_eq_true]
  rw [Bool.eq_false_iff]
  intro hnb
  exact hdist p j (by omega) hjn (by omega) (nbB_zero_iff vs p j |>.mp hnb)

/-- When no vertex has any bigger in-range neighbor, no step ever writes to
the parent array. -/
theorem fold_cp_untouched {vs : List V3} {eps : ℚ} {i : Nat}
    (hnone : ∀ p, i ∉ searchRadiusBigger vs eps p) :
    ∀ (l : List Nat) (u : WeldVars) (fl : Bool),
      ((l.foldl (srcStep (searchRadiusBigger vs eps)) (u, fl)).1.cp i = u.cp i) := by
  intro l
  induction l with
  | nil => intro u fl; rfl
  | cons p t ih =>
    intro u fl
    have hrun : (p :: t).foldl (srcStep (searchRadiusBigger vs eps)) (u, fl)
        = t.foldl (srcStep (searchRadiusBigger vs eps))
            ((srcStep (searchRadiusBigger vs eps) (u, fl) p).1,
             (srcStep (searchRadiusBigger vs eps) (u, fl) p).2) := rfl
    rw [hrun, ih]
    rcases lt_trichotomy (u.rem p) 0 with hneg | h0 | hpos
    · rw [srcStep_of_neg hneg]
    · obtain ⟨E1, E2, _⟩ := @srcStep_emit (searchRadiusBigger vs eps) u fl p
        (searchRadiusBigger_nodup vs eps p)
        (self_not_mem_searchRadiusBigger vs eps p) h0
      by_cases hip : i = p
      · subst hip
        exact E1.2
      · exact (E2 i (hnone p) hip).1
    · rw [srcStep_of_pos hpos]

theorem weldLoop_cp_untouched {vs : List V3} {eps : ℚ} {i : Nat}
    (hnone : ∀ p, i ∉ searchRadiusBigger vs eps p) :
    ∀ (sched : List (List Nat)) (s : WeldVars),
      (weldLoop (searchRadiusBigger vs eps) sched s).1.cp i = s.cp i := by
  intro sched
  induction sched with
  | nil => intro s; rfl
  | cons ord rest ih =>
    intro s
    rw [weldLoop]
    by_cases hw : (wave (searchRadiusBigger vs eps) ord s).2 = true
    · simp only [hw, if_true]
      rw [ih]
      exact fold_cp_untouched hnone ord s false
    · simp only [Bool.not_eq_true] at hw
      simp only [hw, Bool.false_eq_true, if_false]
      exact fold_cp_untouched hnone ord s false

/-- When nobody lists `i` as a bigger neighbor, `rem i` is only changed at
`i`'s own slot. -/
theorem fold_rem_untouched {vs : List V3} {eps : ℚ} {i : Nat}
    (hnone : ∀ p, i ∉ searchRadiusBigger vs eps p) :
    ∀ (l : List Nat) (u : WeldVars) (fl : Bool), i ∉ l →
      ((l.foldl (srcStep (searchRadiusBigger vs eps)) (u, fl)).1.rem i = u.rem i) := by
  intro l
  induction l with
  | nil => intro u fl _; rfl
  | cons p t ih =>
    intro u fl hil
    have hip : i ≠ p := fun h => hil (h ▸ List.mem_cons_self p t)
    have hit : i ∉ t := fun h => hil (List.mem_cons_of_mem p h)
    have hrun : (p :: t).foldl (srcStep (searchRadiusBigger vs eps)) (u, fl)
        = t.foldl (srcStep (searchRadiusBigger vs eps))
            ((srcStep (searchRadiusBigger vs eps) (u, fl) p).1,
             (srcStep (searchRadiusBigger vs eps) (u, fl) p).2) := rfl
    rw [hrun, ih _ _ hit]
    rcases lt_trichotomy (u.rem p) 0 with hneg | h0 | hpos
    · rw [srcStep_of_neg hneg]
    · obtain ⟨_, E2, _⟩ := @srcStep_emit (searchRadiusBigger vs eps) u fl p
        (searchRadiusBigger_nodup vs eps p)
        (self_not_mem_searchRadiusBigger vs eps p) h0
      exact (E2 i (hnone p) hip).2
    · rw [srcStep_of_pos hpos]

theorem weldCp_id_of_no_nbrs {vs : List V3} {eps : ℚ}
    (hempty : ∀ p, searchRadiusBigger vs eps p = []) :
    ∀ (sched : List (List Nat)) (j : Nat), weldCp vs eps sched j = j := by
  intro sched j
  unfold weldCp
  rw [weldLoop_cp_untouched (fun p => by rw [hempty p]; exact List.not_mem_nil j)]
  rfl

theorem reduceRun_id_phi (vs : List V3) (cp : Nat → Nat) (hcp : ∀ i, cp i = i) :
    ∀ k : Nat,
      ((reduceRun vs cp k).new_vertices
        = (List.range k).map (fun i => vs.getD i v3zero))
      ∧ (∀ i, i < k → (reduceRun vs cp k).pid2ccid i = i) := by
  intro k
  induction k with
  | zero => exact ⟨rfl, fun i h => absurd h (Nat.not_lt_zero i)⟩
  | succ k ih =>
    obtain ⟨ihNv, ihP⟩ := ih
    rw [reduceRun_succ]
    simp only [reduceStep, hcp k, if_pos]
    constructor
    · rw [List.range_succ, List.map_append, ihNv]
      rfl
    · intro i hi
      rcases Nat.lt_succ_iff_lt_or_eq.mp hi with h | h
      · rw [upd_ne _ _ (by omega)]
        exact ihP i h
      · subst h
        rw [upd_self, ihNv]
        simp

theorem map_getD_range (vs : List V3) :
    (List.range vs.length).map (fun i => vs.getD i v3zero) = vs := by
  apply List.ext_getElem
  · simp
  · intro i h1 h2
    simp [List.getD_eq_getElem?_getD, List.getElem?_eq_getElem h2]

theorem mesh_update_eq {m : TriangleMesh} {A : List V3}
    {B : List (Nat × Nat × Nat)} (hA : A = m.vertices_) (hB : B = m.triangles_) :
    ({ m with vertices_ := A, triangles_ := B } : TriangleMesh) = m := by
  cases m
  subst hA
  subst hB
  rfl

/-- C6 is refuted by `mDup`, a mesh with two coincident vertices: the closed
ball of radius 0 contains the duplicate, so welding at ε = 0 merges the two
vertices and the vertex count drops from 2 to 1. -/
theorem c6_zero_eps_counterexample :
    (merge_vertices_forward mDup 0 (stdSched 2)).vertices_.length = 1
    ∧ mDup.vertices_.length = 2 :=
  ⟨by with_unfolding_all decide, rfl⟩

/-- C6 amended: welding with ε = 0 returns the mesh unchanged (identical
vertices and triangles, all clusters of size 1) for every mesh whose vertex
positions are pairwise distinct and whose triangle ids are valid; meshes
with coincident vertices still weld those vertices at ε = 0, because the
in-range test is a closed ball. -/
theorem c6_zero_eps_identity (m : TriangleMesh) (sched : List (List Nat))
    (hdist : ∀ i, i < m.vertices_.length → ∀ j, j < m.vertices_.length → i ≠ j →
      m.vertices_.getD i v3zero ≠ m.vertices_.getD j v3zero)
    (hval : ∀ t ∈ m.triangles_, t.1 < m.vertices_.length ∧
        t.2.1 < m.vertices_.length ∧ t.2.2 < m.vertices_.length) :
    merge_vertices_forward m 0 sched = m := by
  have hempty := searchRadiusBigger_zero_empty
    (fun i j hi hj hne => hdist i hi j hj hne)
  have hcpid : ∀ j, weldCp m.vertices_ 0 sched j = j :=
    weldCp_id_of_no_nbrs hempty sched
  obtain ⟨hnv, hp2c⟩ :=
    reduceRun_id_phi m.vertices_ (weldCp m.vertices_ 0 sched) hcpid
      m.vertices_.length
  have hv : (reduceRun m.vertices_ (weldCp m.vertices_ 0 sched)
      m.vertices_.length).new_vertices = m.vertices_ := by
    rw [hnv, map_getD_range]
  have ht : m.triangles_.map (fun t =>
      ((reduceRun m.vertices_ (weldCp m.vertices_ 0 sched)
          m.vertices_.length).pid2ccid t.1,
       (reduceRun m.vertices_ (weldCp m.vertices_ 0 sched)
          m.vertices_.length).pid2ccid t.2.1,
       (reduceRun m.vertices_ (weldCp m.vertices_ 0 sched)
          m.vertices_.length).pid2ccid t.2.2)) = m.triangles_ := by
    have hcong : ∀ t ∈ m.triangles_,
        ((reduceRun m.vertices_ (weldCp m.vertices_ 0 sched)
            m.vertices_.length).pid2ccid t.1,
         (reduceRun m.vertices_ (weldCp m.vertices_ 0 sched)
            m.vertices_.length).pid2ccid t.2.1,
         (reduceRun m.vertices_ (weldCp m.vertices_ 0 sched)
            m.vertices_.length).pid2ccid t.2.2) = t := by
      intro t htm
      obtain ⟨h1, h2, h3⟩ := hval t htm
      rw [hp2c t.1 h1, hp2c t.2.1 h2, hp2c t.2.2 h3]
    rw [List.map_congr_left hcong, List.map_id']
  exact mesh_update_eq hv ht

theorem c6_zero_eps_identity_witness :
    (∀ i, i < mIso.vertices_.length → ∀ j, j < mIso.vertices_.length → i ≠ j →
      mIso.vertices_.getD i v3zero ≠ mIso.vertices_.getD j v3zero)
    ∧ (∀ t ∈ mIso.triangles_, t.1 < mIso.vertices_.length ∧
        t.2.1 < mIso.vertices_.length ∧ t.2.2 < mIso.vertices_.length)
    ∧ merge_vertices_forward mIso 0 (stdSched 2) = mIso :=
  ⟨by with_unfolding_all decide, by decide,
   c6_zero_eps_identity mIso (stdSched 2) (by with_unfolding_all decide)
     (by decide)⟩

/-- C9: a vertex with no epsilon-neighbors other than itself starts with
`rem[i] = 0`, is emitted in the first wave (whatever the processing order),
keeps `cp_vec[i] = i` for the whole run (it emits as its own centroid), and
its final cluster is the singleton `{i}`. -/
theorem c9_isolated_vertex_singleton (m : TriangleMesh) (eps : ℚ) (i : Nat)
    (hi : i < m.vertices_.length)
    (hiso : ∀ j, j < m.vertices_.length → j ≠ i →
      nbB m.vertices_ eps i j = false) :
    remInit m.vertices_ eps i = 0
    ∧ (∀ ord, ord.Perm (List.range m.vertices_.length) →
        (wave (searchRadiusBigger m.vertices_ eps) ord
          (weldInit m.vertices_ eps)).1.rem i = -1)
    ∧ (∀ sched, weldCp m.vertices_ eps sched i = i)
    ∧ (∀ sched j, weldCp m.vertices_ eps sched j = i → j = i) := by
  have hnone : ∀ p, i ∉ searchRadiusBigger m.vertices_ eps p := by
    intro p hmem
    obtain ⟨hin, hpi, hnb⟩ := mem_searchRadiusBigger.mp hmem
    rw [nbB_comm] at hnb
    rw [hiso p (by omega) (by omega)] at hnb
    exact absurd hnb (by simp)
  refine ⟨?_, ?_, ?_, ?_⟩
  · rw [remInit_eq_card hi]
    have hempty : (Finset.range m.vertices_.length).filter
        (fun j => j < i ∧ nbB m.vertices_ eps i j = true) = ∅ := by
      rw [Finset.eq_empty_iff_forall_not_mem]
      intro j hj
      obtain ⟨hjr, hji, hjn⟩ := Finset.mem_filter.mp hj
      rw [hiso j (Finset.mem_range.mp hjr) (by omega)] at hjn
      exact absurd hjn (by simp)
    rw [hempty]
    rfl
  · intro ord hperm
    have hrem0 : (weldInit m.vertices_ eps).rem i = 0 := by
      show remInit m.vertices_ eps i = 0
      rw [remInit_eq_card hi]
      have hempty : (Finset.range m.vertices_.length).filter
          (fun j => j < i ∧ nbB m.vertices_ eps i j = true) = ∅ := by
        rw [Finset.eq_empty_iff_forall_not_mem]
        intro j hj
        obtain ⟨hjr, hji, hjn⟩ := Finset.mem_filter.mp hj
        rw [hiso j (Finset.mem_range.mp hjr) (by omega)] at hjn
        exact absurd hjn (by simp)
      rw [hempty]
      rfl
    have hmord : i ∈ ord := (hperm.mem_iff).mpr (List.mem_range.mpr hi)
    obtain ⟨l1, l2, hsplit⟩ := List.append_of_mem hmord
    have hnd : ord.Nodup := hperm.nodup_iff.mpr (List.nodup_range _)
    have hil1 : i ∉ l1 := by
      intro h
      rw [hsplit] at hnd
      exact (List.disjoint_of_nodup_append hnd h) (List.mem_cons_self i l2)
    have hil2 : i ∉ l2 := by
      rw [hsplit] at hnd
      have := List.Nodup.of_append_right hnd
      exact (List.nodup_cons.mp this).1
    rw [hsplit]
    have hready : (l1.foldl (srcStep (searchRadiusBigger m.vertices_ eps))
        (weldInit m.vertices_ eps, false)).1.rem i = 0 := by
      rw [fold_rem_untouched hnone l1 _ _ hil1]
      exact hrem0
    have hrun : wave (searchRadiusBigger m.vertices_ eps) (l1 ++ i :: l2)
          (weldInit m.vertices_ eps)
        = l2.foldl (srcStep (searchRadiusBigger m.vertices_ eps))
            (srcStep (searchRadiusBigger m.vertices_ eps)
              (l1.foldl (srcStep (searchRadiusBigger m.vertices_ eps))
                (weldInit m.vertices_ eps, false)) i) := by
      unfold wave
      rw [List.foldl_append]
      rfl
    rw [hrun]
    obtain ⟨E1, _, _⟩ := @srcStep_emit (searchRadiusBigger m.vertices_ eps)
      (l1.foldl (srcStep (searchRadiusBigger m.vertices_ eps))
        (weldInit m.vertices_ eps, false)).1
      (l1.foldl (srcStep (searchRadiusBigger m.vertices_ eps))
        (weldInit m.vertices_ eps, false)).2 i
      (searchRadiusBigger_nodup m.vertices_ eps i)
      (self_not_mem_searchRadiusBigger m.vertices_ eps i) hready
    rw [Prod.mk.eta] at E1
    rw [fold_rem_untouched hnone l2 _ _ hil2]
    exact E1.1
  · intro sched
    unfold weldCp
    rw [weldLoop_cp_untouched hnone sched]
    rfl
  · intro sched j hj
    by_contra hne
    have hji : weldCp m.vertices_ eps sched j ≠ j := by
      rw [hj]
      exact fun h => hne h.symm
    obtain ⟨hjn, hnb⟩ := (winv_final m.vertices_ eps sched).cp_dom j hji
    have hnb2 : nbB m.vertices_ eps (weldCp m.vertices_ eps sched j) j = true := hnb
    rw [hj] at hnb2
    rw [hiso j hjn hne] at hnb2
    exact absurd hnb2 (by simp)

theorem c9_isolated_vertex_singleton_witness :
    (0 < mIso.vertices_.length)
    ∧ (∀ j, j < mIso.vertices_.length → j ≠ 0 →
        nbB mIso.vertices_ 1 0 j = false)
    ∧ remInit mIso.vertices_ 1 0 = 0
    ∧ (∀ sched, weldCp mIso.vertices_ 1 sched 0 = 0) := by
  have hiso : ∀ j, j < mIso.vertices_.length → j ≠ 0 →
      nbB mIso.vertices_ 1 0 j = false := by
    with_unfolding_all decide
  have h := c9_isolated_vertex_singleton mIso 1 0 (by decide) hiso
  exact ⟨by decide, hiso, h.1, h.2.2.1⟩

/-! ### The asynchronous variant agrees with the synchronous one -/

theorem foldl_range_succ {α : Type} (f : α → Nat → α) (a : α) (k : Nat) :
    (List.range (k + 1)).foldl f a = f ((List.range k).foldl f a) k := by
  rw [List.range_succ, List.foldl_append]
  rfl

/-- Closed form of the chunked centroid-assignment pass processed in the
concatenated chunk order `0..n-1`: each centroid gets its ascending rank as
compressed cluster id and its position is stored at that slot; all other
`pid2ccid` entries keep their zero initialization. -/
theorem asyncAssignPhi (vs : List V3) (cp : Nat → Nat) :
    ∀ n : Nat,
      ((asyncAssign vs cp (List.range n)).2.length = crank cp n)
      ∧ (∀ i, i < n → cp i = i →
          (asyncAssign vs cp (List.range n)).1 i = crank cp i)
      ∧ (∀ i, ¬(i < n ∧ cp i = i) →
          (asyncAssign vs cp (List.range n)).1 i = 0)
      ∧ (∀ i, i < n → cp i = i →
          (asyncAssign vs cp (List.range n)).2.getD (crank cp i) v3zero
            = vs.getD i v3zero) := by
  intro n
  induction n with
  | zero =>
    exact ⟨rfl, fun i h => absurd h (Nat.not_lt_zero i), fun i _ => rfl,
      fun i h => absurd h (Nat.not_lt_zero i)⟩
  | succ k ih =>
    obtain ⟨ihLen, ihCent, ihZero, ihPos⟩ := ih
    have hrun : asyncAssign vs cp (List.range (k + 1))
        = asyncAssignStep vs cp (asyncAssign vs cp (List.range k)) k :=
      foldl_range_succ _ _ k
    rw [hrun]
    by_cases hc : cp k = k
    · simp only [asyncAssignStep, if_pos hc]
      have hck : crank cp (k + 1) = crank cp k + 1 := by
        rw [crank_succ, if_pos hc]
      refine ⟨?_, ?_, ?_, ?_⟩
      · simp [ihLen, hck]
      · intro i hi hcent
        rcases Nat.lt_succ_iff_lt_or_eq.mp hi with h | h
        · rw [upd_ne _ _ (by omega)]
          exact ihCent i h hcent
        · subst h
          rw [upd_self, ihLen]
      · intro i hni
        have hik : i ≠ k := by
          intro h
          subst h
          exact hni ⟨by omega, hc⟩
        rw [upd_ne _ _ hik]
        refine ihZero i ?_
        intro ⟨h1, h2⟩
        exact hni ⟨by omega, h2⟩
      · intro i hi hcent
        rcases Nat.lt_succ_iff_lt_or_eq.mp hi with h | h
        · rw [List.getD_append _ _ _ _ (by
            rw [ihLen]
            exact crank_lt_of_centroid h hcent)]
          exact ihPos i h hcent
        · subst h
          have : crank cp i = (asyncAssign vs cp (List.range i)).2.length :=
            ihLen.symm
          rw [this, list_getD_append_len]
    · simp only [asyncAssignStep, if_neg hc]
      have hck : crank cp (k + 1) = crank cp k := by
        rw [crank_succ, if_neg hc]
        omega
      refine ⟨by rw [ihLen, hck], ?_, ?_, ?_⟩
      · intro i hi hcent
        rcases Nat.lt_succ_iff_lt_or_eq.mp hi with h | h
        · exact ihCent i h hcent
        · subst h
          exact absurd hcent hc
      · intro i hni
        refine ihZero i ?_
        intro ⟨h1, h2⟩
        exact hni ⟨by omega, h2⟩
      · intro i hi hcent
        rcases Nat.lt_succ_iff_lt_or_eq.mp hi with h | h
        · exact ihPos i h hcent
        · subst h
          exact absurd hcent hc

/-- The serial follower-aggregation pass of the asynchronous variant
simulates the reduce walk: starting from the preloaded centroid positions
`w` (with `pid2ccid` restricted to centroids `q`), after `k` follower
updates every slot of a cluster whose centroid lies below `k` holds exactly
the reduce value, and every other slot is still untouched. -/
theorem asyncAgg_sim (vs : List V3) (cp : Nat → Nat) (n : Nat)
    (hle : ∀ i, cp i ≤ i) (hid : ∀ i, cp (cp i) = cp i)
    (q : Nat → Nat) (w : List V3)
    (hwlen : w.length = crank cp n)
    (hq : ∀ i, i < n → cp i = i → q i = crank cp i)
    (hw : ∀ i, i < n → cp i = i →
      w.getD (crank cp i) v3zero = vs.getD i v3zero) :
    ∀ k, k ≤ n →
      (((List.range k).foldl (asyncAggStep vs cp q) (w, fun _ => 1)).1.length
        = crank cp n)
      ∧ (∀ c, c < crank cp k →
          ((List.range k).foldl (asyncAggStep vs cp q) (w, fun _ => 1)).1.getD c v3zero
            = (reduceRun vs cp k).new_vertices.getD c v3zero
          ∧ ((List.range k).foldl (asyncAggStep vs cp q) (w, fun _ => 1)).2 c
            = (reduceRun vs cp k).counts c)
      ∧ (∀ c, crank cp k ≤ c →
          ((List.range k).foldl (asyncAggStep vs cp q) (w, fun _ => 1)).1.getD c v3zero
            = w.getD c v3zero
          ∧ ((List.range k).foldl (asyncAggStep vs cp q) (w, fun _ => 1)).2 c = 1) := by
  intro k
  induction k with
  | zero =>
    intro _
    refine ⟨hwlen, fun c hc => ?_, fun c _ => ⟨rfl, rfl⟩⟩
    simp [crank] at hc
  | succ k ih =>
    intro hkn
    obtain ⟨ihLen, ihMain, ihUn⟩ := ih (by omega)
    have hkn' : k < n := by omega
    have hrun : (List.range (k + 1)).foldl (asyncAggStep vs cp q) (w, fun _ => 1)
        = asyncAggStep vs cp q
            ((List.range k).foldl (asyncAggStep vs cp q) (w, fun _ => 1)) k :=
      foldl_range_succ _ _ k
    rw [hrun, reduceRun_succ]
    have hphiR := reducePhi vs cp n (fun i _ => hle i) (fun i _ => hid i) k
      (by omega)
    by_cases hc : cp k = k
    · -- centroid: aggregation skips, reduce appends the new slot
      simp only [asyncAggStep, if_pos hc, reduceStep, if_pos hc]
      have hck : crank cp (k + 1) = crank cp k + 1 := by
        rw [crank_succ, if_pos hc]
      refine ⟨ihLen, ?_, ?_⟩
      · intro c hclt
        rw [hck] at hclt
        rcases Nat.lt_succ_iff_lt_or_eq.mp hclt with h | h
        · obtain ⟨hgd, hcnt⟩ := ihMain c h
          refine ⟨?_, hcnt⟩
          rw [hgd, List.getD_append _ _ _ _ (by rw [hphiR.1]; exact h)]
        · subst h
          obtain ⟨hgd, hcnt⟩ := ihUn (crank cp k) (le_refl _)
          constructor
          · rw [hgd, hw k hkn' hc]
            have : crank cp k = (reduceRun vs cp k).new_vertices.length :=
              hphiR.1.symm
            rw [this, list_getD_append_len]
          · rw [hcnt, hphiR.2.2.2.1 (crank cp k) (le_refl _)]
      · intro c hcge
        rw [hck] at hcge
        exact ihUn c (by omega)
    · -- follower: both sides update the same slot with the same mean
      simp only [asyncAggStep, if_neg hc, reduceStep, if_neg hc]
      have hck : crank cp (k + 1) = crank cp k := by
        rw [crank_succ, if_neg hc]
        omega
      have hlt : cp k < k := lt_of_le_of_ne (hle k) hc
      have hcent : cp (cp k) = cp k := hid k
      have hqv : q (cp k) = crank cp (cp k) := hq (cp k) (by omega) hcent
      have hrv : (reduceRun vs cp k).pid2ccid (cp k) = crank cp (cp k) := by
        rw [hphiR.2.1 (cp k) hlt, hcent]
      have hc0lt : crank cp (cp k) < crank cp k := crank_lt_of_centroid hlt hcent
      obtain ⟨hgd0, hcnt0⟩ := ihMain (crank cp (cp k)) hc0lt
      refine ⟨?_, ?_, ?_⟩
      · rw [List.length_set]
        exact ihLen
      · intro c hclt
        rw [hck] at hclt
        by_cases hcc : c = crank cp (cp k)
        · subst hcc
          constructor
          · rw [hqv, hrv]
            rw [list_getD_set_self _ _ (by
              rw [ihLen]
              exact lt_of_lt_of_le hc0lt (crank_mono cp (le_of_lt hkn')))]
            rw [list_getD_set_self _ _ (by rw [hphiR.1]; exact hc0lt)]
            rw [hgd0, hcnt0, add_comm]
          · rw [hqv, hrv, upd_self, upd_self, hcnt0]
        · constructor
          · rw [hqv, hrv]
            rw [list_getD_set_ne _ _ (fun h => hcc h),
              list_getD_set_ne _ _ (fun h => hcc h)]
            exact (ihMain c hclt).1
          · rw [hqv, hrv, upd_ne _ _ (fun h => hcc h),
              upd_ne _ _ (fun h => hcc h)]
            exact (ihMain c hclt).2
      · intro c hcge
        rw [hck] at hcge
        have hcc : c ≠ crank cp (cp k) := by omega
        obtain ⟨hgd, hcnt⟩ := ihUn c hcge
        constructor
        · rw [hqv, list_getD_set_ne _ _ hcc, hgd]
        · rw [hqv, upd_ne _ _ hcc, hcnt]

theorem list_eq_of_getD {l1 l2 : List V3} (hlen : l1.length = l2.length)
    (h : ∀ c, c < l1.length → l1.getD c v3zero = l2.getD c v3zero) :
    l1 = l2 := by
  apply List.ext_getElem hlen
  intro i h1 h2
  have h3 := h i h1
  rwa [List.getD_eq_getElem?_getD, List.getD_eq_getElem?_getD,
    List.getElem?_eq_getElem h1, List.getElem?_eq_getElem h2,
    Option.getD_some, Option.getD_some] at h3

/-- C3: for every mesh, epsilon and schedule, the asynchronous variant run
with the default static chunking (whose concatenated chunk order is
`0..n-1`) produces exactly the same mesh as the synchronous variant: the
same partition of the original ids into clusters, the same compressed
cluster ids, and — with exact arithmetic — the same centroid positions. -/
theorem c3_forward_async_agree (m : TriangleMesh) (eps : ℚ)
    (sched : List (List Nat)) :
    merge_vertices_forward_async m eps sched (List.range m.vertices_.length)
      = merge_vertices_forward m eps sched := by
  have hle := weldCp_le m.vertices_ eps sched
  have hid := weldCp_idem m.vertices_ eps sched
  have hA := asyncAssignPhi m.vertices_ (weldCp m.vertices_ eps sched)
      m.vertices_.length
  have hR := reducePhi m.vertices_ (weldCp m.vertices_ eps sched)
      m.vertices_.length (fun i _ => hle i) (fun i _ => hid i)
      m.vertices_.length (le_refl _)
  have hS := asyncAgg_sim m.vertices_ (weldCp m.vertices_ eps sched)
      m.vertices_.length hle hid
      (asyncAssign m.vertices_ (weldCp m.vertices_ eps sched)
        (List.range m.vertices_.length)).1
      (asyncAssign m.vertices_ (weldCp m.vertices_ eps sched)
        (List.range m.vertices_.length)).2
      hA.1 hA.2.1 hA.2.2.2 m.vertices_.length (le_refl _)
  have hv : ((List.range m.vertices_.length).foldl
        (asyncAggStep m.vertices_ (weldCp m.vertices_ eps sched)
          (asyncAssign m.vertices_ (weldCp m.vertices_ eps sched)
            (List.range m.vertices_.length)).1)
        ((asyncAssign m.vertices_ (weldCp m.vertices_ eps sched)
            (List.range m.vertices_.length)).2, fun _ => 1)).1
      = (reduceRun m.vertices_ (weldCp m.vertices_ eps sched)
          m.vertices_.length).new_vertices := by
    apply list_eq_of_getD
    · rw [hS.1, hR.1]
    · intro c hclt
      rw [hS.1] at hclt
      exact (hS.2.1 c hclt).1
  have hmap : ∀ x : Nat,
      (asyncAssign m.vertices_ (weldCp m.vertices_ eps sched)
        (List.range m.vertices_.length)).1 (weldCp m.vertices_ eps sched x)
      = (reduceRun m.vertices_ (weldCp m.vertices_ eps sched)
          m.vertices_.length).pid2ccid x := by
    intro x
    by_cases hx : x < m.vertices_.length
    · rw [hR.2.1 x hx]
      exact hA.2.1 (weldCp m.vertices_ eps sched x)
        (lt_of_le_of_lt (hle x) hx) (hid x)
    · have hcpx : weldCp m.vertices_ eps sched x = x := weldCp_out (by omega)
      rw [hcpx, hR.2.2.1 x (by omega)]
      refine hA.2.2.1 x ?_
      intro ⟨h1, _⟩
      omega
  have ht : m.triangles_.map (fun t =>
        ((asyncAssign m.vertices_ (weldCp m.vertices_ eps sched)
            (List.range m.vertices_.length)).1 (weldCp m.vertices_ eps sched t.1),
         (asyncAssign m.vertices_ (weldCp m.vertices_ eps sched)
            (List.range m.vertices_.length)).1 (weldCp m.vertices_ eps sched t.2.1),
         (asyncAssign m.vertices_ (weldCp m.vertices_ eps sched)
            (List.range m.vertices_.length)).1 (weldCp m.vertices_ eps sched t.2.2)))
      = m.triangles_.map (fun t =>
        ((reduceRun m.vertices_ (weldCp m.vertices_ eps sched)
            m.vertices_.length).pid2ccid t.1,
         (reduceRun m.vertices_ (weldCp m.vertices_ eps sched)
            m.vertices_.length).pid2ccid t.2.1,
         (reduceRun m.vertices_ (weldCp m.vertices_ eps sched)
            m.vertices_.length).pid2ccid t.2.2)) := by
    apply List.map_congr_left
    intro t _
    rw [hmap t.1, hmap t.2.1, hmap t.2.2]
  show ({ m with
      vertices_ := ((List.range m.vertices_.length).foldl
        (asyncAggStep m.vertices_ (weldCp m.vertices_ eps sched)
          (asyncAssign m.vertices_ (weldCp m.vertices_ eps sched)
            (List.range m.vertices_.length)).1)
        ((asyncAssign m.vertices_ (weldCp m.vertices_ eps sched)
            (List.range m.vertices_.length)).2, fun _ => 1)).1,
      triangles_ := m.triangles_.map (fun t =>
        ((asyncAssign m.vertices_ (weldCp m.vertices_ eps sched)
            (List.range m.vertices_.length)).1 (weldCp m.vertices_ eps sched t.1),
         (asyncAssign m.vertices_ (weldCp m.vertices_ eps sched)
            (List.range m.vertices_.length)).1 (weldCp m.vertices_ eps sched t.2.1),
         (asyncAssign m.vertices_ (weldCp m.vertices_ eps sched)
            (List.range m.vertices_.length)).1 (weldCp m.vertices_ eps sched t.2.2)))
    } : TriangleMesh) = merge_vertices_forward m eps sched
  rw [hv, ht]
  rfl

/-! ### The linear bracket phase of the epsilon finder -/

theorem step_lt_cap_iff (k : Nat) :
    ((k : ℚ) * EPSILON_STEP_SIZE < max_epsilon_searched) ↔ k < 1000 := by
  unfold EPSILON_STEP_SIZE max_epsilon_searched
  constructor
  · intro h
    by_contra hk
    push_neg at hk
    have hq : (1000 : ℚ) ≤ (k : ℚ) := by exact_mod_cast hk
    nlinarith
  · intro h
    have hq : (k : ℚ) < 1000 := by exact_mod_cast h
    nlinarith

/-- If `k0` is the first step index at or after `s` whose rate reaches the
target, the linear walk started at step `s` returns the bracket ending at
`k0`. -/
theorem linGo_found (rate : ℚ → ℚ) (target : ℚ) :
    ∀ (fuel s k0 : Nat), s + fuel = 1001 → 1 ≤ s → s ≤ k0 → k0 ≤ 999 →
      target ≤ rate ((k0 : ℚ) * EPSILON_STEP_SIZE) →
      (∀ k, s ≤ k → k < k0 → rate ((k : ℚ) * EPSILON_STEP_SIZE) < target) →
      ∀ prev, linSearchGo rate target fuel ((s : ℚ) * EPSILON_STEP_SIZE) prev
        = some ⟨((k0 : ℚ) - 1) * EPSILON_STEP_SIZE,
                (k0 : ℚ) * EPSILON_STEP_SIZE,
                (if k0 = s then prev
                 else rate (((k0 : ℚ) - 1) * EPSILON_STEP_SIZE)),
                rate ((k0 : ℚ) * EPSILON_STEP_SIZE)⟩ := by
  intro fuel
  induction fuel with
  | zero => intro s k0 hf h1 hs hk9 _ _ _; omega
  | succ fuel ih =>
    intro s k0 hf h1 hs hk9 hk0 hmin prev
    have hslt : ((s : ℚ) * EPSILON_STEP_SIZE < max_epsilon_searched) :=
      (step_lt_cap_iff s).mpr (by omega)
    rw [linSearchGo, if_pos hslt]
    by_cases hhit : target ≤ rate ((s : ℚ) * EPSILON_STEP_SIZE)
    · have hks : k0 = s := by
        by_contra hne
        have : s < k0 := by omega
        exact absurd hhit (not_le.mpr (hmin s (le_refl s) this))
      subst hks
      rw [if_pos hhit, if_pos rfl]
      have harith : (k0 : ℚ) * EPSILON_STEP_SIZE - EPSILON_STEP_SIZE
          = ((k0 : ℚ) - 1) * EPSILON_STEP_SIZE := by ring
      rw [harith]
    · rw [if_neg hhit]
      have hne : k0 ≠ s := by
        intro h
        exact hhit (h ▸ hk0)
      have harith : (s : ℚ) * EPSILON_STEP_SIZE + EPSILON_STEP_SIZE
          = ((s + 1 : Nat) : ℚ) * EPSILON_STEP_SIZE := by
        push_cast
        ring
      rw [harith,
        ih (s + 1) k0 (by omega) (by omega) (by omega) hk9 hk0
          (fun k hk1 hk2 => hmin k (by omega) hk2) (rate ((s : ℚ) * EPSILON_STEP_SIZE))]
      congr 1
      by_cases hk1 : k0 = s + 1
      · rw [if_pos hk1, if_neg hne]
        subst hk1
        congr 1
        push_cast
        ring_nf
      · rw [if_neg hk1, if_neg hne]

/-- If no step index up to 999 reaches the target, the walk exhausts the
cap and returns nothing (the failing `assert` of the source). -/
theorem linGo_none (rate : ℚ → ℚ) (target : ℚ) :
    ∀ (fuel s : Nat), s + fuel = 1001 → 1 ≤ s →
      (∀ k, s ≤ k → k ≤ 999 → rate ((k : ℚ) * EPSILON_STEP_SIZE) < target) →
      ∀ prev, linSearchGo rate target fuel ((s : ℚ) * EPSILON_STEP_SIZE) prev
        = none := by
  intro fuel
  induction fuel with
  | zero => intro s hf h1 _ prev; rfl
  | succ fuel ih =>
    intro s hf h1 hall prev
    by_cases hs : s ≤ 999
    · have hslt : ((s : ℚ) * EPSILON_STEP_SIZE < max_epsilon_searched) :=
        (step_lt_cap_iff s).mpr (by omega)
      rw [linSearchGo, if_pos hslt,
        if_neg (not_le.mpr (hall s (le_refl s) hs))]
      have harith : (s : ℚ) * EPSILON_STEP_SIZE + EPSILON_STEP_SIZE
          = ((s + 1 : Nat) : ℚ) * EPSILON_STEP_SIZE := by
        push_cast
        ring
      rw [harith]
      exact ih (s + 1) (by omega) (by omega)
        (fun k hk1 hk2 => hall k (by omega) hk2) _
    · have hs1000 : s = 1000 := by omega
      have hnlt : ¬ ((s : ℚ) * EPSILON_STEP_SIZE < max_epsilon_searched) := by
        rw [step_lt_cap_iff]
        omega
      rw [linSearchGo, if_neg hnlt]

/-- C8: the linear bracket phase walks epsilon over
`EPSILON_STEP_SIZE, 2*EPSILON_STEP_SIZE, ...` strictly below the 10.0 cap
(step indices 1..999).  If some step reaches a reduction rate at or above
the target, the first such step `k0` is returned as the bracket
`[(k0-1)*step, k0*step]`, whose stored rates bracket the target (the lower
rate is the memoized previous rate, 0.0 for the first step); if no step
below the cap reaches the target, the search reports failure and produces
no bracket. -/
theorem c8_linear_bracket (rate : ℚ → ℚ) (target : ℚ) (hpos : 0 < target) :
    (∀ k0 : Nat, 1 ≤ k0 → k0 ≤ 999 →
      target ≤ rate ((k0 : ℚ) * EPSILON_STEP_SIZE) →
      (∀ k : Nat, 1 ≤ k → k < k0 → rate ((k : ℚ) * EPSILON_STEP_SIZE) < target) →
      (find_epsilon_range_by_linear_search rate target
        = some ⟨((k0 : ℚ) - 1) * EPSILON_STEP_SIZE,
                (k0 : ℚ) * EPSILON_STEP_SIZE,
                (if k0 = 1 then 0
                 else rate (((k0 : ℚ) - 1) * EPSILON_STEP_SIZE)),
                rate ((k0 : ℚ) * EPSILON_STEP_SIZE)⟩)
      ∧ (if k0 = 1 then (0 : ℚ)
         else rate (((k0 : ℚ) - 1) * EPSILON_STEP_SIZE)) < target
      ∧ target ≤ rate ((k0 : ℚ) * EPSILON_STEP_SIZE))
    ∧ ((∀ k : Nat, 1 ≤ k → k ≤ 999 → rate ((k : ℚ) * EPSILON_STEP_SIZE) < target) →
        find_epsilon_range_by_linear_search rate target = none) := by
  have hone : ((1 : Nat) : ℚ) * EPSILON_STEP_SIZE = EPSILON_STEP_SIZE := by
    push_cast
    ring
  constructor
  · intro k0 h1 h9 hk0 hmin
    refine ⟨?_, ?_, hk0⟩
    · have h := linGo_found rate target 1000 1 k0 (by omega) (le_refl 1) h1 h9
        hk0 (fun k hk1 hk2 => hmin k hk1 hk2) 0
      rw [hone] at h
      exact h
    · by_cases hk1 : k0 = 1
      · rw [if_pos hk1]
        exact hpos
      · rw [if_neg hk1]
        have h := hmin (k0 - 1) (by omega) (by omega)
        have hcast : ((k0 - 1 : Nat) : ℚ) = (k0 : ℚ) - 1 := by
          rw [Nat.cast_sub h1]
          push_cast
          ring
        rwa [hcast] at h
  · intro hall
    have h := linGo_none rate target 1000 1 (by omega) (le_refl 1)
      (fun k hk1 hk2 => hall k hk1 hk2) 0
    rw [hone] at h
    exact h

theorem c8_linear_bracket_witness :
    ((0 : ℚ) < 1/2)
    ∧ find_epsilon_range_by_linear_search (fun e => e) (1/2)
      = some ⟨49/100, 1/2, 49/100, 1/2⟩ := by
  refine ⟨by norm_num, ?_⟩
  have hmin : ∀ k : Nat, 1 ≤ k → k < 50 →
      (fun e => e) ((k : ℚ) * EPSILON_STEP_SIZE) < 1/2 := by
    intro k _ h2
    have hq : (k : ℚ) < 50 := by exact_mod_cast h2
    unfold EPSILON_STEP_SIZE
    nlinarith
  have h := ((c8_linear_bracket (fun e => e) (1/2) (by norm_num)).1 50
    (by omega) (by omega) (by unfold EPSILON_STEP_SIZE; norm_num) hmin).1
  rw [h]
  unfold EPSILON_STEP_SIZE
  norm_num

/-- C10: `merge_vertices_forward` rewrites only `vertices_` and
`triangles_`; the normals, colors and adjacency list of the mesh are
returned exactly as they were. -/
theorem c10_only_vertices_and_triangles_change (m : TriangleMesh) (eps : ℚ)
    (sched : List (List Nat)) :
    (merge_vertices_forward m eps sched).vertex_normals_ = m.vertex_normals_
    ∧ (merge_vertices_forward m eps sched).vertex_colors_ = m.vertex_colors_
    ∧ (merge_vertices_forward m eps sched).triangle_normals_ = m.triangle_normals_
    ∧ (merge_vertices_forward m eps sched).adjacency_list_ = m.adjacency_list_ :=
  ⟨rfl, rfl, rfl, rfl⟩

end PWeld
